import Mathlib

/-!
# Verification of the GO subgraph pipeline (`datasetcomputing/main.py`)

This file is a shallow embedding of the core of `make_go_topo` — the Graph
Builder (`build_subset`), Topological Sorter (`topo_order`) and Depth
Assigner (`compute_depths`) — together with proofs of the behavioural
properties claimed for them.

Modelling conventions:
* Node identities, labels, namespaces and predicates are Lean `String`s;
  Python `None`-able fields are `Option String`. Python truthiness on
  strings (`if not s`) is modelled by `truthy` (empty and missing are falsy).
* Python `dict`s are insertion-ordered association lists
  (`List (String × α)`); assignment is `dictInsert`, which updates an
  existing key in place (keeping its position) and appends a new one.
* Python `set`s of strings iterate in an unspecified (hash-dependent)
  order.  Every place the source iterates over such a set
  (`deque(slim_seeds ...)` and `parents.get(u, [])` inside the
  ancestor-closure walk) receives the enumeration through an explicit
  oracle parameter `setIter : List String → List String`, applied to the
  canonical deduplicated member list.  A `setIter` that permutes its
  argument (`ValidIter`) models one possible run of CPython.
* `while` loops are embedded as fuel-indexed recursions.  The fuel passed
  by the wrappers is proved sufficient (the queue is empty when the
  recursion stops), so the embedding agrees with the Python loop.
* Machine integers: Python's unbounded `int` is `Int` (for the in-degree
  counters, which are decremented) or `Nat` (for BFS depths, which are
  only ever `0` or a successor).
-/

/-- Python truthiness of an optional string: `None` and `""` are falsy. -/
def truthy : Option String → Bool
  | none => false
  | some s => s != ""

/-- Python `dict` assignment `m[k] = v`: update an existing key in place
(keeping its insertion position), otherwise append at the end. -/
def dictInsert {α : Type} : List (String × α) → String → α → List (String × α)
  | [], k, v => [(k, v)]
  | (k0, v0) :: rest, k, v =>
    if k0 = k then (k0, v) :: rest else (k0, v0) :: dictInsert rest k v

/-- The keys of an association list, in insertion order (Python `dict` iteration). -/
def keysOf {α : Type} (m : List (String × α)) : List String := m.map Prod.fst

/-- `suffix.isSuffix s` as a boolean, i.e. Python `s.endswith(suffix)`.
(Defined on character lists to stay kernel-computable.) -/
def endsWithS (s suffix : String) : Bool :=
  decide (suffix.data = s.data.drop (s.data.length - suffix.data.length))

/-- Characters after the last occurrence of `c` (the whole list when `c` is
absent): Python `x.rsplit(c, 1)[-1]`. -/
def afterLast (c : Char) (cs : List Char) : List Char :=
  (cs.reverse.takeWhile (fun x => x != c)).reverse

/-! ## Entity normalization (`norm_go_id`, `pred_name`, `get_namespace`, `in_subset`) -/

/-- The digits at the end of the string, possibly `[]`. -/
def trailingDigits (s : String) : List Char :=
  (s.data.reverse.takeWhile (fun c => c.isDigit)).reverse

/-- The part of the string before its trailing digit run. -/
def beforeTrailingDigits (s : String) : List Char :=
  (s.data.reverse.dropWhile (fun c => c.isDigit)).reverse

/-- The regex match of `(?:/|#)?GO[_:](\d+)$` at the *end-of-string* position
only, returning `GO:<digits>` on a hit.

Anchored at a fixed end position and with `G` not a digit, the pattern
matches iff the maximal trailing digit run is non-empty and is immediately
preceded by `GO_` or `GO:`; the captured group is then exactly that trailing
run (the optional `/` or `#` does not affect matching).  The embedding
computes that characterization directly. -/
def goMatchEnd (s : String) : Option String :=
  match trailingDigits s, (beforeTrailingDigits s).reverse with
  | d :: ds, sep :: o :: g :: _ =>
    if o = 'O' ∧ g = 'G' ∧ (sep = '_' ∨ sep = ':') then
      some (String.mk ('G' :: 'O' :: ':' :: d :: ds))
    else none
  | _, _ => none

/-- Drop a single final newline character, if present: the two positions at
which Python's `$` (without `re.MULTILINE`) can match are the end of the
string and just before a trailing `'\n'`. -/
def stripNL (cs : List Char) : List Char :=
  if cs.getLast? = some '\n' then cs.dropLast else cs

/-- `re.search(r'(?:/|#)?GO[_:](\d+)$', s)`, returning `GO:<digits>` on a hit.

Python's `$` matches at the end of the string or just before a single
trailing newline.  When `s` ends with `'\n'`, the end-of-string position
cannot host the digit group (the preceding character is the newline), so
the search succeeds iff the end-anchored match succeeds on `s` without its
final newline; otherwise only the end-of-string position exists. -/
def goMatch (s : String) : Option String :=
  goMatchEnd (String.mk (stripNL s.data))

/-- `norm_go_id`: `None`/empty stays `None`; a GO IRI/CURIE suffix is
rewritten to `GO:<digits>`; anything else is returned unchanged. -/
def norm_go_id : Option String → Option String
  | none => none
  | some s =>
    if s = "" then none
    else match goMatch s with
      | some r => some r
      | none => some s

/-- `pred_name`: normalize common GO/RO/BFO predicates to short names;
fallback is the trailing path/fragment token. -/
def pred_name : Option String → String
  | none => ""
  | some p =>
    if p = "" then ""
    else if p = "is_a" || endsWithS p "is_a" then "is_a"
    else if endsWithS p "BFO_0000050" || endsWithS p "BFO:0000050" || endsWithS p "part_of" then "part_of"
    else if endsWithS p "BFO_0000051" || endsWithS p "BFO:0000051" || endsWithS p "has_part" then "has_part"
    else if endsWithS p "RO_0002211" || endsWithS p "regulates" then "regulates"
    else if endsWithS p "RO_0002212" || endsWithS p "positively_regulates" then "positively_regulates"
    else if endsWithS p "RO_0002213" || endsWithS p "negatively_regulates" then "negatively_regulates"
    else String.mk (afterLast '#' (afterLast '/' p.data))

/-- One entry of `meta.basicPropertyValues`. -/
structure BPV where
  pred : Option String
  val : Option String
deriving DecidableEq

/-- The metadata bag of a raw node (`nspace` models the JSON key `namespace`,
a Lean keyword). -/
structure NodeMeta where
  basicPropertyValues : List BPV
  nspace : Option String
  subsets : List String
deriving DecidableEq

def emptyMeta : NodeMeta := ⟨[], none, []⟩

/-- A raw node record from the OBO-Graphs JSON. -/
structure RawNode where
  id : Option String
  lbl : Option String
  meta : Option NodeMeta
deriving DecidableEq

/-- A raw edge record; `subj`/`obj`/`pred` are the values `edge_field`
resolves from the several field-naming conventions (`None` when every
variant is absent). -/
structure RawEdge where
  subj : Option String
  obj : Option String
  pred : Option String
deriving DecidableEq

/-- `get_namespace`: the `val` of the first `basicPropertyValues` entry whose
`pred` ends with `hasOBONamespace`, else the `meta.namespace` fallback. -/
def get_namespace : Option NodeMeta → Option String
  | none => none
  | some m =>
    match m.basicPropertyValues.find? (fun v => endsWithS (v.pred.getD "") "hasOBONamespace") with
    | some v => v.val
    | none => m.nspace

/-- `in_subset`: some `meta.subsets` IRI ends with the subset suffix. -/
def in_subset (m : NodeMeta) (suffix : String) : Bool :=
  m.subsets.any (fun iri => endsWithS iri suffix)

/-- A node of the retained node set: identity, display label, metadata bag,
resolved namespace. -/
structure NodeRec where
  id : String
  label : String
  meta : NodeMeta
  nspace : Option String
deriving DecidableEq

/-- Python `n.get("lbl") or nid`. -/
def labelOf (lbl : Option String) (nid : String) : String :=
  match lbl with
  | none => nid
  | some l => if l = "" then nid else l

def mkRec (nid : String) (n : RawNode) (meta : NodeMeta) (ns : Option String) : NodeRec :=
  ⟨nid, labelOf n.lbl nid, meta, ns⟩

/-- The namespace skip test of the initial pass (source line 123): skip when a
restriction is active, the namespace is truthy, and the two differ.  (The
redundant inner `if ns != restrict_namespace` of the source always fires
when the outer condition holds.) -/
def nsSkip (restrict ns : Option String) : Bool :=
  truthy restrict && truthy ns && decide (ns ≠ restrict)

/-- `slim_seeds.add nid` on the insertion-ordered view of the seed set. -/
def seedAdd (seeds : List String) (nid : String) : List String :=
  if nid ∈ seeds then seeds else seeds ++ [nid]

/-- The first pass of `build_subset`: collect (slim-tagged) nodes into the
node map and record the seed set. -/
def initialStep (subset_suffix restrict_namespace : Option String)
    (acc : List (String × NodeRec) × List String) (n : RawNode) :
    List (String × NodeRec) × List String :=
  match norm_go_id n.id with
  | none => acc
  | some nid =>
    if nid = "" then acc
    else
      let meta := n.meta.getD emptyMeta
      let ns := get_namespace (some meta)
      if nsSkip restrict_namespace ns then acc
      else if truthy subset_suffix then
        if in_subset meta (subset_suffix.getD "") then
          (dictInsert acc.1 nid (mkRec nid n meta ns), seedAdd acc.2 nid)
        else acc
      else (dictInsert acc.1 nid (mkRec nid n meta ns), acc.2)

def initialPass (nodes : List RawNode) (subset_suffix restrict_namespace : Option String) :
    List (String × NodeRec) × List String :=
  nodes.foldl (initialStep subset_suffix restrict_namespace) ([], [])

/-- The edge-reading pass: normalize both endpoints, keep only edges whose
normalized predicate is in the keep set, in input order (child, parent, kind). -/
def collectRawEdges (edges : List RawEdge) (keep_pred : List String) :
    List (String × String × String) :=
  edges.foldl (fun acc e =>
    match norm_go_id e.subj, norm_go_id e.obj with
    | some s, some o =>
      if s = "" || o = "" then acc
      else
        let p := pred_name e.pred
        if p ∈ keep_pred then acc ++ [(s, o, p)] else acc
    | _, _ => acc) []

/-- The distinct parents of `u` in the raw kept-predicate edge list: the
member list of the Python set `parents[u]` (enumeration order is supplied
separately by the `setIter` oracle). -/
def parentsOf (raw_edges : List (String × String × String)) (u : String) : List String :=
  ((raw_edges.filter (fun e => decide (e.1 = u))).map (fun e => e.2.1)).dedup

/-- `node_raw_lookup`: the dict comprehension keys every raw node by its
normalized id, later entries overwriting earlier ones. -/
def rawLookup (nodes : List RawNode) (p : String) : Option RawNode :=
  (nodes.filter (fun n => decide (norm_go_id n.id = some p))).getLast?

/-- The ancestor-closure namespace test (source line 176): no restriction, or
namespace missing (`is None` — the empty string does *not* pass here), or equal. -/
def closureNsOk (restrict ns : Option String) : Bool :=
  !(truthy restrict) || ns.isNone || decide (ns = restrict)

/-- State of the ancestor-closure walk: BFS frontier, visited set (as a
membership list) and the growing node map. -/
structure CState where
  frontier : List String
  visited : List String
  nm : List (String × NodeRec)

/-- Processing of the parents of one dequeued node in the closure walk. -/
def closureRelax (nodes : List RawNode) (restrict : Option String)
    (ps : List String) (s : CState) : CState :=
  ps.foldl (fun st p =>
    if p ∈ st.visited then st
    else
      let st1 : CState := ⟨st.frontier ++ [p], st.visited ++ [p], st.nm⟩
      if p ∈ keysOf st1.nm then st1
      else
        match rawLookup nodes p with
        | none => st1
        | some rn =>
          let meta := rn.meta.getD emptyMeta
          let ns := get_namespace (some meta)
          if closureNsOk restrict ns then
            ⟨st1.frontier, st1.visited, dictInsert st1.nm p ⟨p, labelOf rn.lbl p, meta, ns⟩⟩
          else st1) s

/-- One step of the closure inner `for p in parents.get(u, set()):` loop body,
written without local lets (definitionally equal to the fold body of
`closureRelax`). -/
def closureStep (nodes : List RawNode) (restrict : Option String)
    (st : CState) (p : String) : CState :=
  if p ∈ st.visited then st
  else if p ∈ keysOf st.nm then ⟨st.frontier ++ [p], st.visited ++ [p], st.nm⟩
  else
    match rawLookup nodes p with
    | none => ⟨st.frontier ++ [p], st.visited ++ [p], st.nm⟩
    | some rn =>
      if closureNsOk restrict (get_namespace (some (rn.meta.getD emptyMeta))) then
        ⟨st.frontier ++ [p], st.visited ++ [p],
          dictInsert st.nm p ⟨p, labelOf rn.lbl p, rn.meta.getD emptyMeta,
            get_namespace (some (rn.meta.getD emptyMeta))⟩⟩
      else ⟨st.frontier ++ [p], st.visited ++ [p], st.nm⟩

/-- The closure `while frontier:` loop, as a fuel-indexed recursion. -/
def closureLoop (nodes : List RawNode) (restrict : Option String)
    (parentsF : String → List String) : Nat → CState → CState
  | 0, s => s
  | fuel + 1, s =>
    match s.frontier with
    | [] => s
    | u :: rest =>
      closureLoop nodes restrict parentsF fuel
        (closureRelax nodes restrict (parentsF u) ⟨rest, s.visited, s.nm⟩)

/-- The output of the Graph Builder: retained node map, final (trimmed) edge
list, and root list.  The adjacency views of the source are the derived
functions `in_edgesOf`/`out_edges` below. -/
structure BuildResult where
  node_map : List (String × NodeRec)
  E : List (String × String × String)
  roots : List String

/-- `build_subset`.  `setIter` supplies the iteration order of the Python
string sets consumed by the ancestor-closure step (see the header comment);
it is unused when `include_ancestors` is false. -/
def build_subset (setIter : List String → List String)
    (nodes : List RawNode) (edges : List RawEdge)
    (keep_pred : List String) (subset_suffix restrict_namespace : Option String)
    (include_ancestors : Bool) : BuildResult :=
  let ip := initialPass nodes subset_suffix restrict_namespace
  let raw_edges := collectRawEdges edges keep_pred
  let nm1 :=
    if include_ancestors then
      let frontier0 :=
        if truthy subset_suffix && !ip.2.isEmpty then setIter ip.2 else keysOf ip.1
      (closureLoop nodes restrict_namespace (fun u => setIter (parentsOf raw_edges u))
        (frontier0.length + raw_edges.length + 1) ⟨frontier0, frontier0, ip.1⟩).nm
    else ip.1
  let E := raw_edges.filter (fun e =>
    decide (e.1 ∈ keysOf nm1) && decide (e.2.1 ∈ keysOf nm1))
  let roots := (keysOf nm1).filter (fun nid => decide (∀ e ∈ E, e.1 ≠ nid))
  ⟨nm1, E, roots⟩

/-- The incoming adjacency view: node → list of (parent, kind).  A key is
present in the source's `in_edges` dict iff this list is non-empty. -/
def in_edgesOf (E : List (String × String × String)) (c : String) : List (String × String) :=
  (E.filter (fun e => decide (e.1 = c))).map (fun e => e.2)

/-- The outgoing adjacency view: node → list of (child, kind). -/
def out_edges (E : List (String × String × String)) (u : String) : List (String × String) :=
  (E.filter (fun e => decide (e.2.1 = u))).map (fun e => (e.1, e.2.2))

/-! ## Topological Sorter (`topo_order`) -/

/-- State of Kahn's algorithm: FIFO queue, output order, in-degree counter
(the `defaultdict(int)`, as a total function with default 0). -/
structure KState where
  q : List String
  order : List String
  indeg : String → Int

/-- `children[p]` of the sorter: the children of `p` in `E`-order. -/
def childrenOf (E : List (String × String × String)) (p : String) : List String :=
  (E.filter (fun e => decide (e.2.1 = p))).map (fun e => e.1)

/-- The initial in-degree of `v`: the number of kept edges with child `v`. -/
def indeg0 (E : List (String × String × String)) (v : String) : Int :=
  ((E.filter (fun e => decide (e.1 = v))).length : Int)

/-- The inner `for v in children[u]` loop: decrement each child's in-degree,
enqueueing children that reach zero. -/
def kahnRelax (cs : List String) (q : List String) (indeg : String → Int) :
    List String × (String → Int) :=
  cs.foldl (fun acc v =>
    let f := fun w => if w = v then acc.2 w - 1 else acc.2 w
    if f v = 0 then (acc.1 ++ [v], f) else (acc.1, f)) (q, indeg)

/-- The `while Q:` loop of Kahn's algorithm, as a fuel-indexed recursion. -/
def kahnLoop (E : List (String × String × String)) : Nat → KState → KState
  | 0, s => s
  | fuel + 1, s =>
    match s.q with
    | [] => s
    | u :: rest =>
      let r := kahnRelax (childrenOf E u) rest s.indeg
      kahnLoop E fuel ⟨r.1, s.order ++ [u], r.2⟩

/-- The comparison used by Python's `remaining.sort()`: lexicographic string
order by code points, as a kernel-computable boolean on the character lists
(`strLeb a b = true ↔ a ≤ b`, proved below). -/
def strLeb (a b : String) : Bool := !(decide (b.data < a.data))

/-- Insert into a lexicographically sorted list. -/
def insertS (a : String) : List String → List String
  | [] => [a]
  | b :: l => if strLeb a b then a :: b :: l else b :: insertS a l

/-- Python `list.sort()` on strings: ascending lexicographic order.  (An
insertion sort; on strings every correct comparison sort returns the same
list, because elements that compare equal are identical.) -/
def sortS : List String → List String
  | [] => []
  | a :: l => insertS a (sortS l)

/-- The Kahn-phase output of `topo_order` (the `order` list when the queue
is exhausted, before cycle completion). -/
def kahnPhase (keys : List String) (E : List (String × String × String)) : List String :=
  (kahnLoop E (keys.length + E.length + 1)
    ⟨keys.filter (fun nid => decide (indeg0 E nid = 0)), [], indeg0 E⟩).order

/-- `topo_order`: Kahn's algorithm on child→parent edges; if residual cycles
remain, the remaining nodes are appended in ascending lexicographic order. -/
def topo_order (keys : List String) (E : List (String × String × String)) : List String :=
  let order := kahnPhase keys E
  if order.length < keys.length then
    order ++ sortS (keys.filter (fun nid => decide (nid ∉ order)))
  else order

/-! ## Depth Assigner (`compute_depths`) -/

/-- State of the BFS: FIFO queue and the depth mapping. -/
structure DState where
  dq : List String
  dep : List (String × Nat)

/-- The inner loop of the BFS: relax each outgoing child of the dequeued
node (record/overwrite when unrecorded or strictly improved, and enqueue). -/
def depRelax (cs : List (String × String)) (d : Nat) (s : DState) : DState :=
  cs.foldl (fun st vt =>
    match List.lookup vt.1 st.dep with
    | none => ⟨st.dq ++ [vt.1], dictInsert st.dep vt.1 (d + 1)⟩
    | some dv =>
      if d + 1 < dv then ⟨st.dq ++ [vt.1], dictInsert st.dep vt.1 (d + 1)⟩ else st) s

/-- The `while dq:` loop of the BFS, as a fuel-indexed recursion.  (The
`getD 0` on the dequeued node's depth is never the default: every queued
node is recorded — Python would raise a `KeyError` otherwise.) -/
def depLoop (E : List (String × String × String)) : Nat → DState → DState
  | 0, s => s
  | fuel + 1, s =>
    match s.dq with
    | [] => s
    | u :: rest =>
      depLoop E fuel (depRelax (out_edges E u) ((List.lookup u s.dep).getD 0) ⟨rest, s.dep⟩)

/-- `compute_depths`: multi-source BFS distance from the roots along the
outgoing adjacency view of `E`. -/
def compute_depths (roots : List String) (E : List (String × String × String)) :
    List (String × Nat) :=
  let init : DState := roots.foldl (fun st r => ⟨st.dq ++ [r], dictInsert st.dep r 0⟩) ⟨[], []⟩
  (depLoop E (roots.length + roots.length + E.length + 1) init).dep

/-! ## The CLI driver (`main`) -/

/-- Outcome of `load_graph`: the JSON failed to parse (caught in `main`,
`sys.exit(1)`); `graphs[]` was empty (`raise SystemExit(<string>)`, which is
a `BaseException`, escapes the `except Exception` and makes the interpreter
exit with code 1); or the node and edge lists. -/
inductive LoadOutcome where
  | jsonError : LoadOutcome
  | noGraphs : LoadOutcome
  | ok : List RawNode → List RawEdge → LoadOutcome

/-- The process exit code of `main` (0 = success path reached the writers).
`subset_suffix` is the CLI `--subset` after `main`'s `'' ↦ None` conversion. -/
def main_exit (setIter : List String → List String) (lr : LoadOutcome)
    (keep_pred : List String) (subset_suffix restrict_namespace : Option String)
    (include_ancestors : Bool) : Nat :=
  match lr with
  | .jsonError => 1
  | .noGraphs => 1
  | .ok nodes edges =>
    let r := build_subset setIter nodes edges keep_pred subset_suffix restrict_namespace
      include_ancestors
    if r.node_map.isEmpty then 2 else 0

/-! ## Reachability and distance relations used by the claims -/

/-- `Reaches E a b`: there is a non-empty path from `a` to `b` following the
child→parent edges of `E` (so `b` is an ancestor of `a`). -/
inductive Reaches (E : List (String × String × String)) : String → String → Prop where
  | single : ∀ a b t, (a, b, t) ∈ E → Reaches E a b
  | step : ∀ a b t c, (a, b, t) ∈ E → Reaches E b c → Reaches E a c

/-- `ReachFrom E start x`: `x` is reachable (in zero or more upward steps)
from the start set along the child→parent edges of `E`. -/
inductive ReachFrom (E : List (String × String × String)) (start : List String) : String → Prop where
  | base : ∀ x, x ∈ start → ReachFrom E start x
  | step : ∀ u p t, ReachFrom E start u → (u, p, t) ∈ E → ReachFrom E start p

/-- `RootDist roots E n v`: some root reaches `v` in exactly `n` hops along
the outgoing (parent→child) direction of `E`. -/
inductive RootDist (roots : List String) (E : List (String × String × String)) :
    Nat → String → Prop where
  | root : ∀ v, v ∈ roots → RootDist roots E 0 v
  | step : ∀ n u c t, RootDist roots E n u → (c, u, t) ∈ E → RootDist roots E (n + 1) c

/-- A set-enumeration oracle is valid when it permutes the member list it is
given (every CPython hash order is such a permutation). -/
def ValidIter (it : List String → List String) : Prop := ∀ l : List String, (it l).Perm l

/-- The number of kept edges out of `v` (to a parent) whose parent has not
yet been appended to the output order (the running value of the sorter's
in-degree counter). -/
def pend (E : List (String × String × String)) (order : List String) (v : String) : Nat :=
  E.countP (fun e => decide (e.1 = v ∧ e.2.1 ∉ order))

namespace Kahn

/-- The loop invariant of Kahn's algorithm over the state `s`: the emitted
order and the queue are disjoint node-set members without duplicates, the
in-degree counter agrees with `pend`, a node is emitted or queued exactly
when all its parents are emitted, and every emitted child follows all its
parents. -/
structure Inv (keys : List String) (E : List (String × String × String)) (s : KState) : Prop where
  nodup : (s.order ++ s.q).Nodup
  sub : ∀ v ∈ s.order ++ s.q, v ∈ keys
  ind : ∀ v, s.indeg v = (pend E s.order v : Int)
  mem : ∀ v ∈ keys, (v ∈ s.order ++ s.q ↔ pend E s.order v = 0)
  ook : ∀ e ∈ E, e.1 ∈ s.order → s.order.indexOf e.2.1 < s.order.indexOf e.1

end Kahn

namespace Depths

/-- The loop invariant of the multi-source BFS over the state `s`: every
queued node is recorded; every recorded depth is realized by a root path;
the queue splits into a depth-`d` prefix and a depth-`d+1` suffix with all
recorded depths at most `d+1`; every recorded node either has all its
outgoing children relaxed or is still queued; and the recorded keys are
distinct and drawn from the roots and the edge children. -/
structure Inv (roots : List String) (E : List (String × String × String)) (s : DState) :
    Prop where
  qrec : ∀ u ∈ s.dq, ∃ dd, List.lookup u s.dep = some dd
  sound : ∀ v dv, List.lookup v s.dep = some dv → RootDist roots E dv v
  frontier : ∃ d A B, s.dq = A ++ B ∧
      (∀ x ∈ A, List.lookup x s.dep = some d) ∧
      (∀ x ∈ B, List.lookup x s.dep = some (d + 1)) ∧
      (∀ k val, List.lookup k s.dep = some val → val ≤ d + 1)
  closure : ∀ v dv, List.lookup v s.dep = some dv →
      (∀ ct ∈ out_edges E v, ∃ dc, List.lookup ct.1 s.dep = some dc ∧ dc ≤ dv + 1) ∨ v ∈ s.dq
  knodup : (keysOf s.dep).Nodup
  kprov : ∀ k ∈ keysOf s.dep, k ∈ roots ∨ k ∈ E.map (fun e => e.1)

end Depths

namespace Closure

/-- The invariant of the ancestor-closure walk over the state `s`: the
frontier is part of the visited set; the visited set has no duplicates, is
drawn from the universe `U`, and is closed under the parent enumeration
except at nodes still on the frontier; and every visited node that exists
in the raw node collection and passes the closure namespace test is a key
of the growing node map. -/
structure Inv (nodes : List RawNode) (restrict : Option String)
    (parentsF : String → List String) (U : List String) (s : CState) : Prop where
  fsub : ∀ x ∈ s.frontier, x ∈ s.visited
  vnodup : s.visited.Nodup
  closed : ∀ x ∈ s.visited, x ∈ s.frontier ∨ ∀ p ∈ parentsF x, p ∈ s.visited
  added : ∀ x ∈ s.visited, ∀ rn, rawLookup nodes x = some rn →
    closureNsOk restrict (get_namespace (some (rn.meta.getD emptyMeta))) = true →
    x ∈ keysOf s.nm
  prov : ∀ x ∈ s.visited, x ∈ U

end Closure

/-- Claim C2 as stated by the spec: over every retained node set and final
edge list, each retained edge (child, parent, kind) whose parent cannot
reach back to the child puts the child strictly before the parent in the
order. -/
def ClaimC2Prop : Prop :=
  ∀ (keys : List String) (E : List (String × String × String)),
    keys.Nodup → (∀ e ∈ E, e.1 ∈ keys ∧ e.2.1 ∈ keys) →
    ∀ c p t, (c, p, t) ∈ E → ¬ Reaches E p c →
      (topo_order keys E).indexOf c < (topo_order keys E).indexOf p

/-- Claim C5 as stated by the spec: two runs of the Graph Builder + Sorter +
Depth Assigner on identical raw input and configuration (differing only in
the unobservable hash order of Python's string sets) produce identical
Order and Depth outputs. -/
def ClaimC5Prop : Prop :=
  ∀ it1 it2, ValidIter it1 → ValidIter it2 →
  ∀ (nodes : List RawNode) (edges : List RawEdge) (keep_pred : List String)
    (subset_suffix restrict_namespace : Option String) (include_ancestors : Bool),
    (topo_order (keysOf (build_subset it1 nodes edges keep_pred subset_suffix
        restrict_namespace include_ancestors).node_map)
      (build_subset it1 nodes edges keep_pred subset_suffix restrict_namespace
        include_ancestors).E =
     topo_order (keysOf (build_subset it2 nodes edges keep_pred subset_suffix
        restrict_namespace include_ancestors).node_map)
      (build_subset it2 nodes edges keep_pred subset_suffix restrict_namespace
        include_ancestors).E) ∧
    (compute_depths (build_subset it1 nodes edges keep_pred subset_suffix
        restrict_namespace include_ancestors).roots
      (build_subset it1 nodes edges keep_pred subset_suffix restrict_namespace
        include_ancestors).E =
     compute_depths (build_subset it2 nodes edges keep_pred subset_suffix
        restrict_namespace include_ancestors).roots
      (build_subset it2 nodes edges keep_pred subset_suffix restrict_namespace
        include_ancestors).E)

/-- Claim C6 as stated by the spec: in every pipeline output, no node with a
defined depth has a strictly smaller depth than any of its ancestors (nodes
reachable from it along kept child→parent edges) with a defined depth. -/
def ClaimC6Prop : Prop :=
  ∀ it, ValidIter it →
  ∀ (nodes : List RawNode) (edges : List RawEdge) (keep_pred : List String)
    (subset_suffix restrict_namespace : Option String) (include_ancestors : Bool),
    ∀ v a dv da,
      Reaches (build_subset it nodes edges keep_pred subset_suffix restrict_namespace
        include_ancestors).E v a →
      List.lookup v (compute_depths
        (build_subset it nodes edges keep_pred subset_suffix restrict_namespace
          include_ancestors).roots
        (build_subset it nodes edges keep_pred subset_suffix restrict_namespace
          include_ancestors).E) = some dv →
      List.lookup a (compute_depths
        (build_subset it nodes edges keep_pred subset_suffix restrict_namespace
          include_ancestors).roots
        (build_subset it nodes edges keep_pred subset_suffix restrict_namespace
          include_ancestors).E) = some da →
      da ≤ dv

/-- Claim C7 (second half) as stated by the spec: under an active namespace
restriction, every raw node whose namespace tag is present and differs from
the restriction is excluded from the retained node set. -/
def ClaimC7Prop : Prop :=
  ∀ (it : List String → List String) (nodes : List RawNode) (edges : List RawEdge)
    (keep_pred : List String) (subset_suffix restrict_namespace : Option String)
    (include_ancestors : Bool),
    truthy restrict_namespace = true →
    ∀ n ∈ nodes, ∀ nid, norm_go_id n.id = some nid →
      (get_namespace (some (n.meta.getD emptyMeta))).isSome →
      get_namespace (some (n.meta.getD emptyMeta)) ≠ restrict_namespace →
      nid ∉ keysOf (build_subset it nodes edges keep_pred subset_suffix
        restrict_namespace include_ancestors).node_map

/-! ## Supporting lemmas: lists and association lists -/

theorem countP_split {α : Type} (l : List α) (p q r : α → Bool)
    (h : ∀ a ∈ l, p a = (q a || r a)) (hd : ∀ a ∈ l, ¬(q a = true ∧ r a = true)) :
    l.countP p = l.countP q + l.countP r := by
  induction l with
  | nil => simp
  | cons a tl ih =>
    have hp := h a (by simp)
    have hdis := hd a (by simp)
    have ih' := ih (fun x hx => h x (by simp [hx])) (fun x hx => hd x (by simp [hx]))
    simp only [List.countP_cons, hp, ih']
    cases hq : q a <;> cases hr : r a <;> simp [hq, hr] at hdis ⊢ <;> omega

theorem filter_append_not_perm {α : Type} (p : α → Bool) (l : List α) :
    (l.filter p ++ l.filter (fun a => !p a)).Perm l := by
  induction l with
  | nil => simp
  | cons a tl ih =>
    cases hp : p a with
    | true => simpa [List.filter_cons, hp] using ih.cons a
    | false =>
      simp only [List.filter_cons, hp, Bool.not_false, if_pos, cond_true, cond_false]
      exact (List.perm_middle).trans (ih.cons a)

theorem perm_of_nodup_nodup_mem_iff {α : Type} {l₁ l₂ : List α}
    (h₁ : l₁.Nodup) (h₂ : l₂.Nodup) (h : ∀ x, x ∈ l₁ ↔ x ∈ l₂) : l₁.Perm l₂ :=
  (h₁.subperm (fun _ hx => (h _).1 hx)).antisymm (h₂.subperm (fun _ hx => (h _).2 hx))

/-! ## Kahn's algorithm: invariants -/

namespace Kahn

theorem indeg0_eq_pend_nil (E : List (String × String × String)) (v : String) :
    indeg0 E v = (pend E [] v : Int) := by
  unfold indeg0 pend
  rw [List.countP_eq_length_filter]
  have h : List.filter (fun e => decide (e.1 = v ∧ e.2.1 ∉ ([] : List String))) E
      = List.filter (fun e => decide (e.1 = v)) E := by
    apply List.filter_congr
    intro e _
    simp
  rw [h]

theorem pend_eq_zero_iff {E : List (String × String × String)} {order : List String}
    {v : String} :
    pend E order v = 0 ↔ ∀ e ∈ E, e.1 = v → e.2.1 ∈ order := by
  unfold pend
  rw [List.countP_eq_length_filter, List.length_eq_zero, List.filter_eq_nil_iff]
  simp only [decide_eq_true_eq, not_and, not_not]

theorem count_childrenOf (E : List (String × String × String)) (u v : String) :
    (childrenOf E u).count v = E.countP (fun e => decide (e.1 = v ∧ e.2.1 = u)) := by
  unfold childrenOf
  rw [List.count, List.countP_map, List.countP_filter]
  apply List.countP_congr
  intro e _
  simp only [Function.comp_apply, Bool.and_eq_true, beq_iff_eq, decide_eq_true_eq]

theorem pend_append_single {E : List (String × String × String)} {order : List String}
    {u : String} (hu : u ∉ order) (v : String) :
    pend E order v = pend E (order ++ [u]) v + (childrenOf E u).count v := by
  rw [count_childrenOf]
  unfold pend
  apply countP_split
  · intro e _
    by_cases hv : e.1 = v
    · by_cases heu : e.2.1 = u
      · simp [hv, heu, hu, List.mem_append]
      · by_cases ho : e.2.1 ∈ order <;> simp [hv, heu, ho, List.mem_append]
    · simp [hv]
  · intro e _
    rintro ⟨hq, hr⟩
    simp only [decide_eq_true_eq] at hq hr
    exact hq.2 (by simp [hr.2])

end Kahn

namespace Kahn

theorem kahnRelax_cons (v : String) (cs : List String) (q : List String) (indeg : String → Int) :
    kahnRelax (v :: cs) q indeg =
      if indeg v - 1 = 0 then
        kahnRelax cs (q ++ [v]) (fun w => if w = v then indeg w - 1 else indeg w)
      else kahnRelax cs q (fun w => if w = v then indeg w - 1 else indeg w) := by
  by_cases h : indeg v - 1 = 0 <;> simp [kahnRelax, List.foldl_cons, h]

theorem kahnRelax_inv (keys : List String) (E : List (String × String × String))
    (order : List String) :
    ∀ (cs : List String), (∀ v ∈ cs, v ∈ keys) →
    ∀ (q : List String) (indeg : String → Int),
      (order ++ q).Nodup →
      (∀ v ∈ order ++ q, v ∈ keys) →
      (∀ v, indeg v = ((pend E order v + cs.count v : Nat) : Int)) →
      (∀ v ∈ keys, (v ∈ order ++ q ↔ pend E order v + cs.count v = 0)) →
      ((order ++ (kahnRelax cs q indeg).1).Nodup ∧
       (∀ v ∈ order ++ (kahnRelax cs q indeg).1, v ∈ keys) ∧
       (∀ v, (kahnRelax cs q indeg).2 v = ((pend E order v : Nat) : Int)) ∧
       (∀ v ∈ keys, (v ∈ order ++ (kahnRelax cs q indeg).1 ↔ pend E order v = 0))) := by
  intro cs
  induction cs with
  | nil =>
    intro _ q indeg hnd hsub hind hmem
    simp only [kahnRelax, List.foldl_nil]
    exact ⟨hnd, hsub, by simpa using hind, by simpa using hmem⟩
  | cons v0 cs' ih =>
    intro hcs q indeg hnd hsub hind hmem
    have hv0keys : v0 ∈ keys := hcs v0 (by simp)
    have hcs' : ∀ v ∈ cs', v ∈ keys := fun v hv => hcs v (by simp [hv])
    rw [kahnRelax_cons]
    have hindv0 : indeg v0 = ((pend E order v0 + cs'.count v0 + 1 : Nat) : Int) := by
      have := hind v0
      rwa [List.count_cons_self] at this
    have hindne : ∀ w, w ≠ v0 → indeg w = ((pend E order w + cs'.count w : Nat) : Int) := by
      intro w hw
      have := hind w
      rwa [List.count_cons_of_ne hw] at this
    by_cases h0 : indeg v0 - 1 = 0
    · rw [if_pos h0]
      have hz : pend E order v0 + cs'.count v0 = 0 := by
        rw [hindv0] at h0
        push_cast at h0
        omega
      have hv0notin : v0 ∉ order ++ q := by
        intro hmem0
        have := (hmem v0 hv0keys).1 hmem0
        rw [List.count_cons_self] at this
        omega
      apply ih hcs' (q ++ [v0])
      · rw [← List.append_assoc, List.nodup_append]
        rcases List.nodup_append.1 hnd with ⟨h1, h2, h3⟩
        refine ⟨hnd, List.nodup_singleton v0, ?_⟩
        intro x hx
        simp only [List.mem_singleton]
        intro he
        exact hv0notin (he ▸ hx)
      · intro v hv
        rw [← List.append_assoc] at hv
        rcases List.mem_append.1 hv with hv | hv
        · exact hsub v hv
        · rw [List.mem_singleton.1 hv]; exact hv0keys
      · intro w
        by_cases hw : w = v0
        · subst hw
          simp only [if_pos rfl]
          rw [hindv0]
          push_cast
          omega
        · simp only [if_neg hw]
          exact hindne w hw
      · intro v hvk
        rw [← List.append_assoc, List.mem_append, List.mem_singleton]
        by_cases hv : v = v0
        · subst hv
          constructor
          · intro _; exact hz
          · intro _; right; rfl
        · have hm := hmem v hvk
          rw [List.count_cons_of_ne hv] at hm
          constructor
          · rintro (h | h)
            · exact hm.1 h
            · exact absurd h hv
          · intro h; left; exact hm.2 h
    · rw [if_neg h0]
      have hnz : pend E order v0 + cs'.count v0 ≠ 0 := by
        intro hz
        apply h0
        rw [hindv0]
        push_cast
        omega
      apply ih hcs' q
      · exact hnd
      · exact hsub
      · intro w
        by_cases hw : w = v0
        · subst hw
          simp only [if_pos rfl]
          rw [hindv0]
          push_cast
          omega
        · simp only [if_neg hw]
          exact hindne w hw
      · intro v hvk
        by_cases hv : v = v0
        · subst hv
          constructor
          · intro hmem0
            have := (hmem v hvk).1 hmem0
            rw [List.count_cons_self] at this
            omega
          · intro h; exact absurd h hnz
        · have hm := hmem v hvk
          rw [List.count_cons_of_ne hv] at hm
          exact hm

end Kahn

namespace Kahn

theorem childrenOf_sub {keys : List String} {E : List (String × String × String)}
    (hE : ∀ e ∈ E, e.1 ∈ keys ∧ e.2.1 ∈ keys) (u : String) :
    ∀ v ∈ childrenOf E u, v ∈ keys := by
  intro v hv
  unfold childrenOf at hv
  rcases List.mem_map.1 hv with ⟨e, he, rfl⟩
  exact (hE e (List.mem_filter.1 he).1).1

theorem kahn_step_inv {keys : List String} {E : List (String × String × String)}
    (hE : ∀ e ∈ E, e.1 ∈ keys ∧ e.2.1 ∈ keys) {s : KState} (hInv : Inv keys E s)
    {u : String} {rest : List String} (hq : s.q = u :: rest) :
    Inv keys E ⟨(kahnRelax (childrenOf E u) rest s.indeg).1, s.order ++ [u],
      (kahnRelax (childrenOf E u) rest s.indeg).2⟩ := by
  have huq : u ∈ s.order ++ s.q := by rw [hq]; simp
  have hukeys : u ∈ keys := hInv.sub u huq
  have huno : u ∉ s.order := by
    have hnd := hInv.nodup
    rw [hq] at hnd
    rcases List.nodup_append.1 hnd with ⟨-, -, h3⟩
    intro hu
    exact h3 hu (by simp)
  have hpendu : pend E s.order u = 0 := (hInv.mem u hukeys).1 huq
  have hparents : ∀ e ∈ E, e.1 = u → e.2.1 ∈ s.order := pend_eq_zero_iff.1 hpendu
  have heq : (s.order ++ [u]) ++ rest = s.order ++ s.q := by
    rw [hq, List.append_assoc, List.singleton_append]
  have hmain := kahnRelax_inv keys E (s.order ++ [u]) (childrenOf E u)
    (childrenOf_sub hE u) rest s.indeg
    (by rw [heq]; exact hInv.nodup)
    (by rw [heq]; exact hInv.sub)
    (by
      intro v
      rw [hInv.ind v, ← pend_append_single huno v])
    (by
      intro v hvk
      rw [heq, ← pend_append_single huno v]
      exact hInv.mem v hvk)
  refine ⟨hmain.1, hmain.2.1, hmain.2.2.1, hmain.2.2.2, ?_⟩
  have hORD : ∀ e ∈ E, e.1 ∈ s.order → e.2.1 ∈ s.order := by
    intro e he h1
    have hm : e.1 ∈ s.order ++ s.q := List.mem_append_left _ h1
    have hz := (hInv.mem e.1 (hInv.sub e.1 hm)).1 hm
    exact pend_eq_zero_iff.1 hz e he rfl
  intro e he h1
  simp only at h1 ⊢
  rcases List.mem_append.1 h1 with h1 | h1
  · have hp := hORD e he h1
    rw [List.indexOf_append_of_mem h1, List.indexOf_append_of_mem hp]
    exact hInv.ook e he h1
  · have h1' := List.mem_singleton.1 h1
    have hp : e.2.1 ∈ s.order := hparents e he h1'
    rw [List.indexOf_append_of_mem hp, h1', List.indexOf_append_of_not_mem huno,
      List.indexOf_cons_self, Nat.add_zero]
    exact List.indexOf_lt_length.2 hp

theorem order_le_keys {keys : List String} {E : List (String × String × String)} {s : KState}
    (hInv : Inv keys E s) : s.order.length + s.q.length ≤ keys.length := by
  have h := (hInv.nodup.subperm (fun v hv => hInv.sub v hv)).length_le
  simpa using h

theorem kahnLoop_inv {keys : List String} {E : List (String × String × String)}
    (hE : ∀ e ∈ E, e.1 ∈ keys ∧ e.2.1 ∈ keys) :
    ∀ (fuel : Nat) (s : KState), Inv keys E s →
      Inv keys E (kahnLoop E fuel s) ∧
      (keys.length + 1 ≤ fuel + s.order.length → (kahnLoop E fuel s).q = []) := by
  intro fuel
  induction fuel with
  | zero =>
    intro s hInv
    refine ⟨hInv, ?_⟩
    intro hlen
    have := order_le_keys hInv
    simp only [kahnLoop]
    omega
  | succ fuel ih =>
    intro s hInv
    obtain ⟨q, order, indeg⟩ := s
    cases hq : q with
    | nil =>
      subst hq
      exact ⟨hInv, fun _ => rfl⟩
    | cons u rest =>
      subst hq
      have hstep := kahn_step_inv hE hInv (rfl : (⟨u :: rest, order, indeg⟩ : KState).q = u :: rest)
      have hrec := ih _ hstep
      refine ⟨hrec.1, ?_⟩
      intro hlen
      apply hrec.2
      dsimp only at hlen ⊢
      simp only [List.length_append, List.length_singleton]
      omega

theorem init_inv (keys : List String) (E : List (String × String × String))
    (hkeys : keys.Nodup) :
    Inv keys E ⟨keys.filter (fun nid => decide (indeg0 E nid = 0)), [], indeg0 E⟩ := by
  constructor
  · simpa using hkeys.filter _
  · intro v hv
    simp only [List.nil_append] at hv
    exact (List.mem_filter.1 hv).1
  · intro v
    exact indeg0_eq_pend_nil E v
  · intro v hvk
    simp only [List.nil_append, List.mem_filter, hvk, true_and, decide_eq_true_eq]
    rw [indeg0_eq_pend_nil E v]
    omega
  · intro e he h1
    simp at h1

theorem kahnPhase_spec (keys : List String) (E : List (String × String × String))
    (hkeys : keys.Nodup) (hE : ∀ e ∈ E, e.1 ∈ keys ∧ e.2.1 ∈ keys) :
    (kahnPhase keys E).Nodup ∧
    (∀ v ∈ kahnPhase keys E, v ∈ keys) ∧
    (∀ v ∈ keys, (v ∈ kahnPhase keys E ↔ pend E (kahnPhase keys E) v = 0)) ∧
    (∀ e ∈ E, e.1 ∈ kahnPhase keys E →
      e.2.1 ∈ kahnPhase keys E ∧
      (kahnPhase keys E).indexOf e.2.1 < (kahnPhase keys E).indexOf e.1) := by
  have h := kahnLoop_inv hE (keys.length + E.length + 1) _ (init_inv keys E hkeys)
  have hqnil : (kahnLoop E (keys.length + E.length + 1)
      ⟨keys.filter (fun nid => decide (indeg0 E nid = 0)), [], indeg0 E⟩).q = [] := by
    apply h.2
    simp only [List.length_nil]
    omega
  obtain ⟨hnd, hsub, hind, hmem, hook⟩ := h.1
  rw [hqnil, List.append_nil] at hnd hsub hmem
  refine ⟨hnd, hsub, hmem, ?_⟩
  intro e he h1
  have hp : pend E (kahnPhase keys E) e.1 = 0 := (hmem e.1 (hsub e.1 h1)).1 h1
  exact ⟨pend_eq_zero_iff.1 hp e he rfl, hook e he h1⟩

end Kahn

theorem topo_order_eq_of_lt (keys : List String) (E : List (String × String × String))
    (h : (kahnPhase keys E).length < keys.length) :
    topo_order keys E = kahnPhase keys E ++
      sortS (keys.filter (fun nid => decide (nid ∉ kahnPhase keys E))) := by
  show (if (kahnPhase keys E).length < keys.length then
      kahnPhase keys E ++ sortS (keys.filter (fun nid => decide (nid ∉ kahnPhase keys E)))
    else kahnPhase keys E) = _
  rw [if_pos h]

theorem topo_order_eq_of_ge (keys : List String) (E : List (String × String × String))
    (h : ¬ (kahnPhase keys E).length < keys.length) :
    topo_order keys E = kahnPhase keys E := by
  show (if (kahnPhase keys E).length < keys.length then
      kahnPhase keys E ++ sortS (keys.filter (fun nid => decide (nid ∉ kahnPhase keys E)))
    else kahnPhase keys E) = _
  rw [if_neg h]

theorem strLeb_eq_true_iff (a b : String) : strLeb a b = true ↔ a ≤ b := by
  unfold strLeb
  simp only [Bool.not_eq_true', decide_eq_false_iff_not]
  constructor
  · intro h
    exact not_lt.1 (fun hlt => h (String.lt_iff_toList_lt.1 hlt))
  · intro h hlt
    exact absurd (String.lt_iff_toList_lt.2 hlt) (not_lt.2 h)

theorem insertS_perm (a : String) (l : List String) : (insertS a l).Perm (a :: l) := by
  induction l with
  | nil => simp [insertS]
  | cons b l ih =>
    unfold insertS
    by_cases h : strLeb a b
    · rw [if_pos h]
    · rw [if_neg h]
      exact (ih.cons b).trans (List.Perm.swap a b l)

theorem sortS_perm (l : List String) : (sortS l).Perm l := by
  induction l with
  | nil => simp [sortS]
  | cons a l ih =>
    unfold sortS
    exact (insertS_perm a (sortS l)).trans (ih.cons a)

theorem insertS_sorted (a : String) (l : List String) (h : l.Sorted (· ≤ ·)) :
    (insertS a l).Sorted (· ≤ ·) := by
  induction l with
  | nil => simp [insertS]
  | cons b l ih =>
    rcases List.sorted_cons.1 h with ⟨hb, hl⟩
    unfold insertS
    by_cases hab : strLeb a b
    · rw [if_pos hab]
      have hab' : a ≤ b := (strLeb_eq_true_iff a b).1 hab
      refine List.sorted_cons.2 ⟨?_, h⟩
      intro x hx
      rcases List.mem_cons.1 hx with hx | hx
      · exact hx ▸ hab'
      · exact le_trans hab' (hb x hx)
    · rw [if_neg hab]
      have hba : b ≤ a := by
        rcases le_total a b with hle | hle
        · exact absurd ((strLeb_eq_true_iff a b).2 hle) hab
        · exact hle
      refine List.sorted_cons.2 ⟨?_, ih hl⟩
      intro x hx
      rcases List.mem_cons.1 ((insertS_perm a l).mem_iff.1 hx) with hx | hx
      · exact hx ▸ hba
      · exact hb x hx

theorem sortS_sorted (l : List String) : (sortS l).Sorted (· ≤ ·) := by
  induction l with
  | nil => simp [sortS]
  | cons a l ih =>
    unfold sortS
    exact insertS_sorted a (sortS l) ih

/-! ## Claims about the Topological Sorter (C1, C2, C4) -/

/-- **C1.** For every retained node set and final edge list (whose endpoints
all lie in the node set, as the builder's trim step guarantees), the
sequence returned by `topo_order` is a permutation of exactly the retained
node set: it contains every retained node identity exactly once and nothing
else. -/
theorem C1_order_is_permutation (keys : List String) (E : List (String × String × String))
    (hkeys : keys.Nodup) (hE : ∀ e ∈ E, e.1 ∈ keys ∧ e.2.1 ∈ keys) :
    (topo_order keys E).Perm keys := by
  obtain ⟨hnd, hsub, hmem, hook⟩ := Kahn.kahnPhase_spec keys E hkeys hE
  by_cases hlt : (kahnPhase keys E).length < keys.length
  · rw [topo_order_eq_of_lt keys E hlt]
    have h1 : (kahnPhase keys E).Perm
        (keys.filter (fun nid => decide (nid ∈ kahnPhase keys E))) := by
      apply perm_of_nodup_nodup_mem_iff hnd (hkeys.filter _)
      intro x
      simp only [List.mem_filter, decide_eq_true_eq]
      exact ⟨fun hx => ⟨hsub x hx, hx⟩, fun hx => hx.2⟩
    have h2 := sortS_perm (keys.filter (fun nid => decide (nid ∉ kahnPhase keys E)))
    have hcong : keys.filter (fun nid => decide (nid ∉ kahnPhase keys E)) =
        keys.filter (fun a => !(decide (a ∈ kahnPhase keys E))) :=
      List.filter_congr (fun a _ => by simp [decide_not])
    have step1 : (kahnPhase keys E ++
        sortS (keys.filter (fun nid => decide (nid ∉ kahnPhase keys E)))).Perm
        (kahnPhase keys E ++ keys.filter (fun nid => decide (nid ∉ kahnPhase keys E))) :=
      h2.append_left _
    have step2 : (kahnPhase keys E ++
        keys.filter (fun nid => decide (nid ∉ kahnPhase keys E))).Perm
        (keys.filter (fun nid => decide (nid ∈ kahnPhase keys E)) ++
          keys.filter (fun nid => decide (nid ∉ kahnPhase keys E))) :=
      h1.append_right _
    have step3 : (keys.filter (fun nid => decide (nid ∈ kahnPhase keys E)) ++
        keys.filter (fun nid => decide (nid ∉ kahnPhase keys E))).Perm keys := by
      rw [hcong]
      exact filter_append_not_perm _ keys
    exact (step1.trans step2).trans step3
  · rw [topo_order_eq_of_ge keys E hlt]
    exact (hnd.subperm (fun v hv => hsub v hv)).perm_of_length_le (Nat.le_of_not_lt hlt)

theorem C1_order_is_permutation_witness :
    (["B", "A"] : List String).Nodup ∧
    (topo_order ["B", "A"] [("A", "B", "is_a")]).Perm ["B", "A"] :=
  ⟨by decide, C1_order_is_permutation ["B", "A"] [("A", "B", "is_a")] (by decide) (by decide)⟩

/-- **C2 (counterexample).** The claim as stated is false: on the retained
node set `["A", "B"]` with the single acyclic edge `("A", "B", "is_a")`
(child `A`, parent `B`, no path from `B` back to `A`), the computed order
is `["B", "A"]`, so the index of the child is strictly *greater* than the
index of the parent. -/
theorem C2_counterexample : ¬ ClaimC2Prop := by
  intro h
  have hnr : ¬ Reaches [("A", "B", "is_a")] "B" "A" := by
    intro hr
    cases hr <;> simp_all
  have h2 := h ["A", "B"] [("A", "B", "is_a")] (by decide) (by decide)
    "A" "B" "is_a" (by decide) hnr
  exact absurd h2 (by decide)

/-- **C2 (amended).** The sorter outputs parents before children, not
children before parents: for every retained edge (child, parent, kind)
whose child is emitted during the Kahn phase, the index of the *parent* in
the order returned by `topo_order` is strictly smaller than the index of
the child.  (Edges whose child is only emitted by the lexicographic cycle
completion get no index guarantee, even when they do not lie on a cycle.) -/
theorem C2_parent_before_child (keys : List String) (E : List (String × String × String))
    (hkeys : keys.Nodup) (hE : ∀ e ∈ E, e.1 ∈ keys ∧ e.2.1 ∈ keys) :
    ∀ c p t, (c, p, t) ∈ E → c ∈ kahnPhase keys E →
      (topo_order keys E).indexOf p < (topo_order keys E).indexOf c := by
  obtain ⟨hnd, hsub, hmem, hook⟩ := Kahn.kahnPhase_spec keys E hkeys hE
  intro c p t he hc
  have h4 := hook (c, p, t) he hc
  have hsplit : ∃ r, topo_order keys E = kahnPhase keys E ++ r := by
    by_cases hcase : (kahnPhase keys E).length < keys.length
    · exact ⟨_, topo_order_eq_of_lt keys E hcase⟩
    · exact ⟨[], (topo_order_eq_of_ge keys E hcase).trans (List.append_nil _).symm⟩
  obtain ⟨r, hr⟩ := hsplit
  rw [hr, List.indexOf_append_of_mem h4.1, List.indexOf_append_of_mem hc]
  exact h4.2

theorem C2_parent_before_child_witness :
    ("A", "B", "is_a") ∈ ([("A", "B", "is_a")] : List (String × String × String)) ∧
    "A" ∈ kahnPhase ["A", "B"] [("A", "B", "is_a")] ∧
    (topo_order ["A", "B"] [("A", "B", "is_a")]).indexOf "B" <
      (topo_order ["A", "B"] [("A", "B", "is_a")]).indexOf "A" :=
  ⟨by decide, by decide,
    C2_parent_before_child ["A", "B"] [("A", "B", "is_a")] (by decide) (by decide)
      "A" "B" "is_a" (by decide) (by decide)⟩

/-- **C4.** Whenever the Kahn phase exhausts its queue with fewer output
nodes than the retained node set, `topo_order` appends exactly the
remaining nodes, in ascending lexicographic order of their identity
strings. -/
theorem C4_cycle_completion_lexicographic (keys : List String)
    (E : List (String × String × String))
    (h : (kahnPhase keys E).length < keys.length) :
    ∃ r, topo_order keys E = kahnPhase keys E ++ r ∧
      r.Sorted (· ≤ ·) ∧
      (∀ x, x ∈ r ↔ x ∈ keys ∧ x ∉ kahnPhase keys E) := by
  refine ⟨sortS (keys.filter (fun nid => decide (nid ∉ kahnPhase keys E))), ?_, ?_, ?_⟩
  · exact topo_order_eq_of_lt keys E h
  · exact sortS_sorted _
  · intro x
    rw [(sortS_perm _).mem_iff, List.mem_filter]
    simp

theorem C4_cycle_completion_lexicographic_witness :
    (kahnPhase ["A", "B", "C"]
        [("A", "B", "is_a"), ("B", "C", "is_a"), ("C", "A", "is_a")]).length <
      (["A", "B", "C"] : List String).length ∧
    topo_order ["A", "B", "C"] [("A", "B", "is_a"), ("B", "C", "is_a"), ("C", "A", "is_a")] =
      ["A", "B", "C"] ∧
    (∃ r, topo_order ["A", "B", "C"]
        [("A", "B", "is_a"), ("B", "C", "is_a"), ("C", "A", "is_a")] =
      kahnPhase ["A", "B", "C"] [("A", "B", "is_a"), ("B", "C", "is_a"), ("C", "A", "is_a")] ++ r ∧
      r.Sorted (· ≤ ·) ∧
      (∀ x, x ∈ r ↔ x ∈ (["A", "B", "C"] : List String) ∧
        x ∉ kahnPhase ["A", "B", "C"] [("A", "B", "is_a"), ("B", "C", "is_a"), ("C", "A", "is_a")])) :=
  ⟨by decide, by decide,
    C4_cycle_completion_lexicographic ["A", "B", "C"]
      [("A", "B", "is_a"), ("B", "C", "is_a"), ("C", "A", "is_a")] (by decide)⟩

/-! ## Association-list lemmas -/

theorem lookup_dictInsert_self {α : Type} (m : List (String × α)) (k : String) (v : α) :
    List.lookup k (dictInsert m k v) = some v := by
  induction m with
  | nil => simp [dictInsert, List.lookup]
  | cons kv rest ih =>
    obtain ⟨k0, v0⟩ := kv
    unfold dictInsert
    by_cases h : k0 = k
    · rw [if_pos h]
      simp [List.lookup, h]
    · rw [if_neg h]
      simp only [List.lookup]
      have hne : (k == k0) = false := by
        rw [beq_eq_false_iff_ne]
        exact fun he => h he.symm
      rw [hne]
      exact ih

theorem lookup_dictInsert_ne {α : Type} (m : List (String × α)) (k k' : String) (v : α)
    (h : k' ≠ k) : List.lookup k' (dictInsert m k v) = List.lookup k' m := by
  induction m with
  | nil =>
    simp only [dictInsert, List.lookup]
    rw [beq_eq_false_iff_ne.2 h]
  | cons kv rest ih =>
    obtain ⟨k0, v0⟩ := kv
    unfold dictInsert
    by_cases h0 : k0 = k
    · rw [if_pos h0]
      simp only [List.lookup]
      rw [beq_eq_false_iff_ne.2 (h0 ▸ h)]
    · rw [if_neg h0]
      simp only [List.lookup]
      by_cases hk : k' = k0
      · rw [beq_iff_eq.mpr hk]
      · rw [beq_eq_false_iff_ne.2 hk]
        exact ih

theorem lookup_eq_none_iff {α : Type} (m : List (String × α)) (k : String) :
    List.lookup k m = none ↔ k ∉ keysOf m := by
  induction m with
  | nil => simp [List.lookup, keysOf]
  | cons kv rest ih =>
    obtain ⟨k0, v0⟩ := kv
    simp only [List.lookup, keysOf, List.map_cons, List.mem_cons]
    by_cases h : k = k0
    · rw [beq_iff_eq.mpr h]
      simp [h]
    · rw [beq_eq_false_iff_ne.2 h]
      unfold keysOf at ih
      simp [ih, h]

theorem lookup_isSome_iff {α : Type} (m : List (String × α)) (k : String) :
    (List.lookup k m).isSome = true ↔ k ∈ keysOf m := by
  cases h : List.lookup k m with
  | none =>
    simp only [Option.isSome_none]
    constructor
    · intro hfalse
      cases hfalse
    · intro hk
      exact absurd hk ((lookup_eq_none_iff m k).1 h)
  | some v =>
    simp only [Option.isSome_some, true_iff]
    by_contra hk
    rw [(lookup_eq_none_iff m k).2 hk] at h
    simp at h

theorem keysOf_dictInsert_of_mem {α : Type} (m : List (String × α)) (k : String) (v : α)
    (h : k ∈ keysOf m) : keysOf (dictInsert m k v) = keysOf m := by
  induction m with
  | nil => simp [keysOf] at h
  | cons kv rest ih =>
    obtain ⟨k0, v0⟩ := kv
    unfold dictInsert
    by_cases h0 : k0 = k
    · rw [if_pos h0]
      simp [keysOf]
    · rw [if_neg h0]
      simp only [keysOf, List.map_cons, List.cons.injEq, true_and]
      apply ih
      simp only [keysOf, List.map_cons, List.mem_cons] at h
      rcases h with h | h
      · exact absurd h.symm h0
      · exact h

theorem keysOf_dictInsert_of_not_mem {α : Type} (m : List (String × α)) (k : String) (v : α)
    (h : k ∉ keysOf m) : keysOf (dictInsert m k v) = keysOf m ++ [k] := by
  induction m with
  | nil => simp [dictInsert, keysOf]
  | cons kv rest ih =>
    obtain ⟨k0, v0⟩ := kv
    unfold dictInsert
    simp only [keysOf, List.map_cons, List.mem_cons, not_or] at h
    rw [if_neg (fun he => h.1 he.symm)]
    simp only [keysOf, List.map_cons, List.cons_append, List.cons.injEq, true_and]
    exact ih h.2

theorem length_dictInsert_of_mem {α : Type} (m : List (String × α)) (k : String) (v : α)
    (h : k ∈ keysOf m) : (dictInsert m k v).length = m.length := by
  have h1 := keysOf_dictInsert_of_mem m k v h
  have h2 : (keysOf (dictInsert m k v)).length = (keysOf m).length := by rw [h1]
  simpa [keysOf] using h2

theorem length_dictInsert_of_not_mem {α : Type} (m : List (String × α)) (k : String) (v : α)
    (h : k ∉ keysOf m) : (dictInsert m k v).length = m.length + 1 := by
  have h1 := keysOf_dictInsert_of_not_mem m k v h
  have h2 : (keysOf (dictInsert m k v)).length = (keysOf m ++ [k]).length := by rw [h1]
  simp only [keysOf, List.length_map, List.length_append, List.length_singleton] at h2
  exact h2

/-! ## The Depth Assigner: invariants -/

namespace Depths

theorem mem_out_edges {E : List (String × String × String)} {u c t : String}
    (h : (c, u, t) ∈ E) : (c, t) ∈ out_edges E u := by
  unfold out_edges
  exact List.mem_map.2 ⟨(c, u, t), List.mem_filter.2 ⟨h, by simp⟩, rfl⟩

theorem out_edges_mem {E : List (String × String × String)} {u : String}
    {ct : String × String} (h : ct ∈ out_edges E u) : ∃ t', (ct.1, u, t') ∈ E := by
  unfold out_edges at h
  rcases List.mem_map.1 h with ⟨e, he, rfl⟩
  rcases List.mem_filter.1 he with ⟨heE, hp⟩
  simp only [decide_eq_true_eq] at hp
  refine ⟨e.2.2, ?_⟩
  rw [← hp]
  exact heE

theorem depRelax_cons (ct : String × String) (cs : List (String × String)) (d : Nat)
    (st : DState) :
    depRelax (ct :: cs) d st =
      depRelax cs d (match List.lookup ct.1 st.dep with
        | none => ⟨st.dq ++ [ct.1], dictInsert st.dep ct.1 (d + 1)⟩
        | some dv =>
          if d + 1 < dv then ⟨st.dq ++ [ct.1], dictInsert st.dep ct.1 (d + 1)⟩ else st) :=
  rfl

theorem depRelax_spec (d : Nat) :
    ∀ (cs : List (String × String)) (st : DState),
      (∀ k val, List.lookup k st.dep = some val → val ≤ d + 1) →
      (keysOf st.dep).Nodup →
      (∀ k val, List.lookup k st.dep = some val →
          List.lookup k (depRelax cs d st).dep = some val) ∧
      (∀ k val, List.lookup k (depRelax cs d st).dep = some val →
          List.lookup k st.dep = some val ∨
            (List.lookup k st.dep = none ∧ val = d + 1 ∧ ∃ ct ∈ cs, ct.1 = k)) ∧
      (∃ new, (depRelax cs d st).dq = st.dq ++ new ∧
          (∀ x ∈ new, List.lookup x (depRelax cs d st).dep = some (d + 1)) ∧
          (∀ k val, List.lookup k st.dep = none →
            List.lookup k (depRelax cs d st).dep = some val → k ∈ new)) ∧
      (∀ ct ∈ cs, ∃ dc, List.lookup ct.1 (depRelax cs d st).dep = some dc ∧ dc ≤ d + 1) ∧
      ((depRelax cs d st).dep.length + st.dq.length =
          st.dep.length + (depRelax cs d st).dq.length) ∧
      (keysOf (depRelax cs d st).dep).Nodup := by
  intro cs
  induction cs with
  | nil =>
    intro st hbound hnodup
    refine ⟨fun k val h => h, fun k val h => Or.inl h, ⟨[], by simp [depRelax], ?_, ?_⟩,
      ?_, by simp [depRelax], by simpa [depRelax] using hnodup⟩
    · intro x hx
      simp at hx
    · intro k val hnone hsome
      simp only [depRelax, List.foldl_nil] at hsome
      rw [hnone] at hsome
      cases hsome
    · intro ct hct
      simp at hct
  | cons ct cs' ih =>
    intro st hbound hnodup
    rw [depRelax_cons]
    cases hl : List.lookup ct.1 st.dep with
    | some dv =>
      have hle : ¬ (d + 1 < dv) := by
        have := hbound ct.1 dv hl
        omega
      simp only [hl, if_neg hle]
      obtain ⟨e1, e2, e3, e4, e5, e6⟩ := ih st hbound hnodup
      refine ⟨e1, ?_, e3, ?_, e5, e6⟩
      · intro k val h
        rcases e2 k val h with h | h
        · exact Or.inl h
        · exact Or.inr ⟨h.1, h.2.1, h.2.2.choose, List.mem_cons_of_mem _ h.2.2.choose_spec.1,
            h.2.2.choose_spec.2⟩
      · intro ct0 hct0
        rcases List.mem_cons.1 hct0 with hct0 | hct0
        · subst hct0
          exact ⟨dv, e1 ct0.1 dv hl, hbound ct0.1 dv hl⟩
        · exact e4 ct0 hct0
    | none =>
      have hmemk : ct.1 ∉ keysOf st.dep := (lookup_eq_none_iff _ _).1 hl
      simp only [hl]
      have hself : List.lookup ct.1 (dictInsert st.dep ct.1 (d + 1)) = some (d + 1) :=
        lookup_dictInsert_self _ _ _
      have hbound1 : ∀ k val,
          List.lookup k (dictInsert st.dep ct.1 (d + 1)) = some val → val ≤ d + 1 := by
        intro k val h
        by_cases hk : k = ct.1
        · subst hk
          rw [hself] at h
          cases h
          exact Nat.le_refl _
        · rw [lookup_dictInsert_ne _ _ _ _ hk] at h
          exact hbound k val h
      have hnodup1 : (keysOf (dictInsert st.dep ct.1 (d + 1))).Nodup := by
        rw [keysOf_dictInsert_of_not_mem _ _ _ hmemk]
        rw [List.nodup_append]
        exact ⟨hnodup, List.nodup_singleton _, by
          intro x hx
          simp only [List.mem_singleton]
          intro he
          exact hmemk (he ▸ hx)⟩
      obtain ⟨e1, e2, e3, e4, e5, e6⟩ :=
        ih ⟨st.dq ++ [ct.1], dictInsert st.dep ct.1 (d + 1)⟩ hbound1 hnodup1
      refine ⟨?_, ?_, ?_, ?_, ?_, e6⟩
      · intro k val h
        have hk : k ≠ ct.1 := by
          intro he
          rw [he, hl] at h
          cases h
        apply e1
        rw [lookup_dictInsert_ne _ _ _ _ hk]
        exact h
      · intro k val h
        rcases e2 k val h with h | h
        · by_cases hk : k = ct.1
          · subst hk
            rw [hself] at h
            cases h
            exact Or.inr ⟨hl, rfl, ct, List.mem_cons_self _ _, rfl⟩
          · rw [lookup_dictInsert_ne _ _ _ _ hk] at h
            exact Or.inl h
        · have hk : k ≠ ct.1 := by
            intro he
            rw [he, hself] at h
            cases h.1
          rw [lookup_dictInsert_ne _ _ _ _ hk] at h
          exact Or.inr ⟨h.1, h.2.1, h.2.2.choose, List.mem_cons_of_mem _ h.2.2.choose_spec.1,
            h.2.2.choose_spec.2⟩
      · obtain ⟨new, hnew, hnewval, hnewfresh⟩ := e3
        refine ⟨ct.1 :: new, ?_, ?_, ?_⟩
        · rw [hnew]
          simp
        · intro x hx
          rcases List.mem_cons.1 hx with hx | hx
          · subst hx
            exact e1 ct.1 (d + 1) hself
          · exact hnewval x hx
        · intro k val hnone hsome
          by_cases hk : k = ct.1
          · exact hk ▸ List.mem_cons_self _ _
          · apply List.mem_cons_of_mem
            apply hnewfresh k val
            · rw [lookup_dictInsert_ne _ _ _ _ hk]
              exact hnone
            · exact hsome
      · intro ct0 hct0
        rcases List.mem_cons.1 hct0 with hct0 | hct0
        · subst hct0
          exact ⟨d + 1, e1 ct0.1 (d + 1) hself, Nat.le_refl _⟩
        · exact e4 ct0 hct0
      · have hlen : (dictInsert st.dep ct.1 (d + 1)).length = st.dep.length + 1 :=
          length_dictInsert_of_not_mem _ _ _ hmemk
        simp only [hlen, List.length_append, List.length_singleton] at e5
        omega

end Depths

namespace Depths

theorem dep_step_inv {roots : List String} {E : List (String × String × String)}
    {s : DState} (hInv : Inv roots E s) {u : String} {rest : List String}
    (hq : s.dq = u :: rest) :
    Inv roots E (depRelax (out_edges E u) ((List.lookup u s.dep).getD 0) ⟨rest, s.dep⟩) ∧
    ((depRelax (out_edges E u) ((List.lookup u s.dep).getD 0) ⟨rest, s.dep⟩).dep.length +
        rest.length = s.dep.length +
        (depRelax (out_edges E u) ((List.lookup u s.dep).getD 0) ⟨rest, s.dep⟩).dq.length) ∧
    (∀ k val, List.lookup k s.dep = some val →
      List.lookup k
        (depRelax (out_edges E u) ((List.lookup u s.dep).getD 0) ⟨rest, s.dep⟩).dep
        = some val) := by
  obtain ⟨du, hdu⟩ := hInv.qrec u (by rw [hq]; exact List.mem_cons_self _ _)
  have hgetD : (List.lookup u s.dep).getD 0 = du := by rw [hdu]; rfl
  rw [hgetD]
  obtain ⟨d, A, B, hAB, hA, hB, hbd⟩ := hInv.frontier
  rw [hq] at hAB
  have hbound : ∀ k val, List.lookup k s.dep = some val → val ≤ du + 1 := by
    cases A with
    | nil =>
      rw [List.nil_append] at hAB
      have hdud : du = d + 1 := by
        have h2 := hB u (hAB ▸ List.mem_cons_self _ _)
        rw [hdu] at h2
        exact Option.some_injective _ h2
      intro k val h
      have := hbd k val h
      omega
    | cons a A' =>
      simp only [List.cons_append] at hAB
      injection hAB with hu hrest
      have hdud : du = d := by
        have h2 := hA a (List.mem_cons_self _ _)
        rw [← hu, hdu] at h2
        exact Option.some_injective _ h2
      intro k val h
      have := hbd k val h
      omega
  obtain ⟨e1, e2, ⟨new, hnew, hnewval, hnewfresh⟩, e4, e5, e6⟩ :=
    depRelax_spec du (out_edges E u) ⟨rest, s.dep⟩ hbound hInv.knodup
  refine ⟨?_, by simpa using e5, e1⟩
  constructor
  · -- qrec
    intro x hx
    rw [hnew] at hx
    rcases List.mem_append.1 hx with hx | hx
    · obtain ⟨dd, hdd⟩ := hInv.qrec x (by rw [hq]; exact List.mem_cons_of_mem _ hx)
      exact ⟨dd, e1 x dd hdd⟩
    · exact ⟨du + 1, hnewval x hx⟩
  · -- sound
    intro v dv h
    rcases e2 v dv h with hold | ⟨-, hval, ct, hct, hctv⟩
    · exact hInv.sound v dv hold
    · obtain ⟨t', ht'⟩ := out_edges_mem hct
      rw [hctv] at ht'
      rw [hval]
      exact RootDist.step du u v t' (hInv.sound u du hdu) ht'
  · -- frontier
    cases A with
    | nil =>
      rw [List.nil_append] at hAB
      have hdud : du = d + 1 := by
        have h2 := hB u (hAB ▸ List.mem_cons_self _ _)
        rw [hdu] at h2
        exact Option.some_injective _ h2
      have hrest : ∀ x ∈ rest, x ∈ B := by
        intro x hx
        rw [← hAB]
        exact List.mem_cons_of_mem _ hx
      refine ⟨d + 1, rest, new, hnew, ?_, ?_, ?_⟩
      · intro x hx
        exact e1 x (d + 1) (hB x (hrest x hx))
      · intro x hx
        rw [← hdud]
        exact hnewval x hx
      · intro k val h
        rcases e2 k val h with hold | ⟨-, hval, -⟩
        · have := hbd k val hold
          omega
        · omega
    | cons a A' =>
      simp only [List.cons_append] at hAB
      injection hAB with hu hrest
      have hdud : du = d := by
        have h2 := hA a (List.mem_cons_self _ _)
        rw [← hu, hdu] at h2
        exact Option.some_injective _ h2
      refine ⟨d, A', B ++ new, ?_, ?_, ?_, ?_⟩
      · rw [hnew, hrest, List.append_assoc]
      · intro x hx
        exact e1 x d (hA x (List.mem_cons_of_mem _ hx))
      · intro x hx
        rcases List.mem_append.1 hx with hx | hx
        · exact e1 x (d + 1) (hB x hx)
        · rw [← hdud]
          exact hnewval x hx
      · intro k val h
        rcases e2 k val h with hold | ⟨-, hval, -⟩
        · exact hbd k val hold
        · omega
  · -- closure
    intro v dv h
    rcases e2 v dv h with hold | ⟨hnone, hval, -⟩
    · by_cases hvu : v = u
      · subst hvu
        have hdv : dv = du := by
          rw [hdu] at hold
          exact (Option.some_injective _ hold).symm
        subst hdv
        exact Or.inl (fun ct hct => e4 ct hct)
      · rcases hInv.closure v dv hold with hcl | hvq
        · left
          intro ct hct
          obtain ⟨dc, hdc, hdcle⟩ := hcl ct hct
          exact ⟨dc, e1 ct.1 dc hdc, hdcle⟩
        · right
          rw [hnew]
          apply List.mem_append_left
          rw [hq] at hvq
          rcases List.mem_cons.1 hvq with hvq | hvq
          · exact absurd hvq hvu
          · exact hvq
    · right
      rw [hnew]
      exact List.mem_append_right _ (hnewfresh v dv hnone h)
  · -- knodup
    exact e6
  · -- kprov
    intro k hk
    have hsome := (lookup_isSome_iff _ k).2 hk
    obtain ⟨val, hval⟩ := Option.isSome_iff_exists.1 hsome
    rcases e2 k val hval with hold | ⟨-, -, ct, hct, hctk⟩
    · apply hInv.kprov k
      apply (lookup_isSome_iff _ k).1
      rw [hold]
      rfl
    · obtain ⟨t', ht'⟩ := out_edges_mem hct
      rw [hctk] at ht'
      exact Or.inr (List.mem_map.2 ⟨(k, u, t'), ht', rfl⟩)

end Depths

namespace Depths

theorem dep_length_le {roots : List String} {E : List (String × String × String)}
    {s : DState} (hInv : Inv roots E s) :
    s.dep.length ≤ (roots ++ E.map (fun e => e.1)).dedup.length := by
  have hsub : keysOf s.dep ⊆ (roots ++ E.map (fun e => e.1)).dedup := by
    intro k hk
    rw [List.mem_dedup]
    rcases hInv.kprov k hk with h | h
    · exact List.mem_append_left _ h
    · exact List.mem_append_right _ h
  have h := (hInv.knodup.subperm hsub).length_le
  simpa [keysOf] using h

theorem depLoop_inv (roots : List String) (E : List (String × String × String)) :
    ∀ (fuel : Nat) (s : DState), Inv roots E s →
      Inv roots E (depLoop E fuel s) ∧
      (∀ k val, List.lookup k s.dep = some val →
        List.lookup k (depLoop E fuel s).dep = some val) ∧
      (s.dq.length + (roots ++ E.map (fun e => e.1)).dedup.length ≤ fuel + s.dep.length →
        (depLoop E fuel s).dq = []) := by
  intro fuel
  induction fuel with
  | zero =>
    intro s hInv
    refine ⟨hInv, fun k val h => h, ?_⟩
    intro hlen
    have hle := dep_length_le hInv
    have hq0 : s.dq.length = 0 := by omega
    exact List.length_eq_zero.1 hq0
  | succ fuel ih =>
    intro s hInv
    obtain ⟨dq, dep⟩ := s
    cases hdq : dq with
    | nil =>
      subst hdq
      exact ⟨hInv, fun k val h => h, fun _ => rfl⟩
    | cons u rest =>
      subst hdq
      obtain ⟨hInv1, hlen1, hext1⟩ :=
        dep_step_inv hInv (rfl : (⟨u :: rest, dep⟩ : DState).dq = u :: rest)
      obtain ⟨h1, h2, h3⟩ := ih _ hInv1
      refine ⟨h1, ?_, ?_⟩
      · intro k val h
        exact h2 k val (hext1 k val h)
      · intro hlen
        apply h3
        simp only [List.length_cons] at hlen
        dsimp only at hlen1 hlen ⊢
        omega

theorem depInit_dq :
    ∀ (rs : List String) (st : DState),
      (rs.foldl (fun st r => (⟨st.dq ++ [r], dictInsert st.dep r 0⟩ : DState)) st).dq =
        st.dq ++ rs := by
  intro rs
  induction rs with
  | nil => intro st; simp
  | cons r tl ih =>
    intro st
    rw [List.foldl_cons, ih]
    simp

theorem depInit_I (rootsAll : List String) :
    ∀ (rs : List String), (∀ r ∈ rs, r ∈ rootsAll) →
    ∀ (st : DState),
      (∀ k val, List.lookup k st.dep = some val → val = 0) →
      (∀ x, x ∈ st.dq ↔ x ∈ keysOf st.dep) →
      (keysOf st.dep).Nodup →
      (∀ k ∈ keysOf st.dep, k ∈ rootsAll) →
      ((∀ k val, List.lookup k
          (rs.foldl (fun st r => (⟨st.dq ++ [r], dictInsert st.dep r 0⟩ : DState)) st).dep =
            some val → val = 0) ∧
       (∀ x, x ∈ (rs.foldl (fun st r => (⟨st.dq ++ [r], dictInsert st.dep r 0⟩ : DState)) st).dq
          ↔ x ∈ keysOf
            (rs.foldl (fun st r => (⟨st.dq ++ [r], dictInsert st.dep r 0⟩ : DState)) st).dep) ∧
       (keysOf
          (rs.foldl (fun st r => (⟨st.dq ++ [r], dictInsert st.dep r 0⟩ : DState)) st).dep).Nodup ∧
       (∀ k ∈ keysOf
          (rs.foldl (fun st r => (⟨st.dq ++ [r], dictInsert st.dep r 0⟩ : DState)) st).dep,
          k ∈ rootsAll)) := by
  intro rs
  induction rs with
  | nil =>
    intro _ st h1 h2 h3 h4
    exact ⟨h1, h2, h3, h4⟩
  | cons r tl ih =>
    intro hrs st h1 h2 h3 h4
    rw [List.foldl_cons]
    apply ih (fun x hx => hrs x (List.mem_cons_of_mem _ hx))
    · intro k val h
      by_cases hk : k = r
      · subst hk
        rw [lookup_dictInsert_self] at h
        cases h
        rfl
      · rw [lookup_dictInsert_ne _ _ _ _ hk] at h
        exact h1 k val h
    · intro x
      dsimp only
      rw [List.mem_append, List.mem_singleton, h2 x]
      by_cases hr : r ∈ keysOf st.dep
      · rw [keysOf_dictInsert_of_mem _ _ _ hr]
        constructor
        · rintro (h | h)
          · exact h
          · exact h ▸ hr
        · exact Or.inl
      · rw [keysOf_dictInsert_of_not_mem _ _ _ hr]
        simp [List.mem_append]
    · dsimp only
      by_cases hr : r ∈ keysOf st.dep
      · rw [keysOf_dictInsert_of_mem _ _ _ hr]
        exact h3
      · rw [keysOf_dictInsert_of_not_mem _ _ _ hr, List.nodup_append]
        exact ⟨h3, List.nodup_singleton _, by
          intro x hx
          simp only [List.mem_singleton]
          intro he
          exact hr (he ▸ hx)⟩
    · intro k hk
      dsimp only at hk
      by_cases hr : r ∈ keysOf st.dep
      · rw [keysOf_dictInsert_of_mem _ _ _ hr] at hk
        exact h4 k hk
      · rw [keysOf_dictInsert_of_not_mem _ _ _ hr] at hk
        rcases List.mem_append.1 hk with hk | hk
        · exact h4 k hk
        · rw [List.mem_singleton.1 hk]
          exact hrs r (List.mem_cons_self _ _)

theorem compute_depths_spec (roots : List String) (E : List (String × String × String)) :
    (∀ v n, RootDist roots E n v →
        ∃ val, List.lookup v (compute_depths roots E) = some val ∧ val ≤ n) ∧
    (∀ v val, List.lookup v (compute_depths roots E) = some val → RootDist roots E val v) := by
  obtain ⟨i1, i2, i3, i4⟩ := depInit_I roots roots (fun r h => h) (⟨[], []⟩ : DState)
    (by intro k val h; cases h) (by intro x; simp [keysOf]) (by simp [keysOf])
    (by intro k hk; simp [keysOf] at hk)
  have hdq : (roots.foldl (fun st r => (⟨st.dq ++ [r], dictInsert st.dep r 0⟩ : DState))
      (⟨[], []⟩ : DState)).dq = roots := by
    rw [depInit_dq roots (⟨[], []⟩ : DState)]
    rfl
  have hInv : Inv roots E (roots.foldl
      (fun st r => (⟨st.dq ++ [r], dictInsert st.dep r 0⟩ : DState)) (⟨[], []⟩ : DState)) := by
    constructor
    · intro x hx
      have hk := (i2 x).1 hx
      exact Option.isSome_iff_exists.1 ((lookup_isSome_iff _ x).2 hk)
    · intro v dv h
      have h0 := i1 v dv h
      have hk : v ∈ keysOf (roots.foldl
          (fun st r => (⟨st.dq ++ [r], dictInsert st.dep r 0⟩ : DState))
          (⟨[], []⟩ : DState)).dep := by
        apply (lookup_isSome_iff _ v).1
        rw [h]
        rfl
      have hv : v ∈ roots := by
        rw [← hdq]
        exact (i2 v).2 hk
      rw [h0]
      exact RootDist.root v hv
    · refine ⟨0, _, [], (List.append_nil _).symm, ?_, ?_, ?_⟩
      · intro x hx
        have hk := (i2 x).1 hx
        obtain ⟨val, hval⟩ := Option.isSome_iff_exists.1 ((lookup_isSome_iff _ x).2 hk)
        rw [hval, i1 x val hval]
      · intro x hx
        exact absurd hx (List.not_mem_nil x)
      · intro k val h
        rw [i1 k val h]
        omega
    · intro v dv h
      right
      apply (i2 v).2
      apply (lookup_isSome_iff _ v).1
      rw [h]
      rfl
    · exact i3
    · intro k hk
      rw [← hdq]
      exact Or.inl ((i2 k).2 hk)
  obtain ⟨hfin, hext, hqnil'⟩ := depLoop_inv roots E (roots.length + roots.length + E.length + 1)
    _ hInv
  have hqnil : (depLoop E (roots.length + roots.length + E.length + 1)
      (roots.foldl (fun st r => (⟨st.dq ++ [r], dictInsert st.dep r 0⟩ : DState))
        (⟨[], []⟩ : DState))).dq = [] := by
    apply hqnil'
    have hB : (roots ++ E.map (fun e => e.1)).dedup.length ≤ roots.length + E.length := by
      have h1 := (List.dedup_sublist (roots ++ E.map (fun e => e.1))).length_le
      simpa using h1
    rw [hdq]
    omega
  constructor
  · intro v n h
    induction h with
    | root v hv =>
      have hvdq : v ∈ (roots.foldl
          (fun st r => (⟨st.dq ++ [r], dictInsert st.dep r 0⟩ : DState))
          (⟨[], []⟩ : DState)).dq := by
        rw [hdq]
        exact hv
      have hk := (i2 v).1 hvdq
      obtain ⟨val, hval⟩ := Option.isSome_iff_exists.1 ((lookup_isSome_iff _ v).2 hk)
      have h0 := i1 v val hval
      rw [h0] at hval
      exact ⟨0, hext v 0 hval, Nat.le_refl 0⟩
    | step n u c t hu he ih =>
      obtain ⟨du, hdu, hdule⟩ := ih
      rcases hfin.closure u du hdu with hcl | huq
      · obtain ⟨dc, hdc, hdcle⟩ := hcl (c, t) (mem_out_edges he)
        exact ⟨dc, hdc, by omega⟩
      · rw [hqnil] at huq
        cases huq
  · intro v val h
    exact hfin.sound v val h

end Depths

/-! ## Claims about the Depth Assigner (C3, C6) -/

/-- **C3.** For every root set and outgoing adjacency view (derived from the
edge list `E`), `compute_depths` maps each node reachable from some root to
the minimum number of hops from any root (roots get 0), and nodes
unreachable from every root are absent from the mapping; in particular, for
the chain with kept child→parent edges `Y→X` and `X→R`, the depths are
`R=0`, `X=1`, `Y=2`. -/
theorem C3_depth_is_min_root_distance :
    (∀ (roots : List String) (E : List (String × String × String)) v val,
        List.lookup v (compute_depths roots E) = some val →
        RootDist roots E val v ∧ ∀ n, RootDist roots E n v → val ≤ n) ∧
    (∀ (roots : List String) (E : List (String × String × String)) v,
        (List.lookup v (compute_depths roots E)).isSome = true ↔
          ∃ n, RootDist roots E n v) ∧
    (∀ (roots : List String) (E : List (String × String × String)) r,
        r ∈ roots → List.lookup r (compute_depths roots E) = some 0) ∧
    compute_depths ["R"] [("Y", "X", "is_a"), ("X", "R", "is_a")] =
      [("R", 0), ("X", 1), ("Y", 2)] := by
  refine ⟨?_, ?_, ?_, by decide⟩
  · intro roots E v val h
    obtain ⟨hc, hs⟩ := Depths.compute_depths_spec roots E
    refine ⟨hs v val h, ?_⟩
    intro n hn
    obtain ⟨val', hval', hle⟩ := hc v n hn
    rw [h] at hval'
    have := Option.some_injective _ hval'
    omega
  · intro roots E v
    obtain ⟨hc, hs⟩ := Depths.compute_depths_spec roots E
    constructor
    · intro h
      obtain ⟨val, hval⟩ := Option.isSome_iff_exists.1 h
      exact ⟨val, hs v val hval⟩
    · rintro ⟨n, hn⟩
      obtain ⟨val, hval, -⟩ := hc v n hn
      rw [hval]
      rfl
  · intro roots E r hr
    obtain ⟨hc, hs⟩ := Depths.compute_depths_spec roots E
    obtain ⟨val, hval, hle⟩ := hc r 0 (RootDist.root r hr)
    have h0 : val = 0 := Nat.le_zero.1 hle
    rw [← h0]
    exact hval

theorem C3_depth_is_min_root_distance_witness :
    List.lookup "Y" (compute_depths ["R"] [("Y", "X", "is_a"), ("X", "R", "is_a")]) = some 2 ∧
    RootDist ["R"] [("Y", "X", "is_a"), ("X", "R", "is_a")] 2 "Y" ∧
    List.lookup "R" (compute_depths ["R"] [("Y", "X", "is_a"), ("X", "R", "is_a")]) = some 0 :=
  ⟨by decide,
    (C3_depth_is_min_root_distance.1 ["R"] [("Y", "X", "is_a"), ("X", "R", "is_a")]
      "Y" 2 (by decide)).1,
    C3_depth_is_min_root_distance.2.2.1 ["R"] [("Y", "X", "is_a"), ("X", "R", "is_a")]
      "R" (by decide)⟩

/-- **C6 (counterexample).** The claim as stated is false.  On the raw input
with nodes `R, S, B, X, Y` and kept edges `B→R, X→B, Y→X, Y→S` (no subset
filter, no namespace restriction, no ancestor closure), the pipeline's
roots are `R` and `S`; `X` is an ancestor of `Y` (edge `Y→X`), yet
`Depth[Y] = 1 < 2 = Depth[X]`, because `Y` is reached in one hop from the
root `S` while `X` is two hops below `R`. -/
theorem C6_counterexample : ¬ ClaimC6Prop := by
  intro h
  have h2 := h id (fun l => List.Perm.refl l)
    [(⟨some "R", none, some ⟨[], none, []⟩⟩ : RawNode),
     ⟨some "S", none, some ⟨[], none, []⟩⟩,
     ⟨some "B", none, some ⟨[], none, []⟩⟩,
     ⟨some "X", none, some ⟨[], none, []⟩⟩,
     ⟨some "Y", none, some ⟨[], none, []⟩⟩]
    [(⟨some "B", some "R", some "is_a"⟩ : RawEdge),
     ⟨some "X", some "B", some "is_a"⟩,
     ⟨some "Y", some "X", some "is_a"⟩,
     ⟨some "Y", some "S", some "is_a"⟩]
    ["is_a"] none none false "Y" "X" 1 2
    (Reaches.single "Y" "X" "is_a" (by decide)) (by decide) (by decide)
  exact absurd h2 (by decide)

/-- **C6 (amended).** The Depth mapping is consistent with the kept edges in
the weaker, local sense: for every kept edge (child, parent, kind) whose
parent has a defined depth, the child also has a defined depth and
`Depth[child] ≤ Depth[parent] + 1`.  A node may have a strictly smaller
depth than one of its ancestors when a shorter route from another root
reaches it, so the global monotonicity stated by the spec does not hold. -/
theorem C6_depth_edge_consistency (roots : List String)
    (E : List (String × String × String)) (c p t : String) (he : (c, p, t) ∈ E)
    (dp : Nat) (hp : List.lookup p (compute_depths roots E) = some dp) :
    ∃ dc, List.lookup c (compute_depths roots E) = some dc ∧ dc ≤ dp + 1 := by
  obtain ⟨hc, hs⟩ := Depths.compute_depths_spec roots E
  exact hc c (dp + 1) (RootDist.step dp p c t (hs p dp hp) he)

theorem C6_depth_edge_consistency_witness :
    List.lookup "R" (compute_depths ["R"] [("Y", "X", "is_a"), ("X", "R", "is_a")]) = some 0 ∧
    (∃ dc, List.lookup "X" (compute_depths ["R"] [("Y", "X", "is_a"), ("X", "R", "is_a")]) =
      some dc ∧ dc ≤ 0 + 1) :=
  ⟨by decide,
    C6_depth_edge_consistency ["R"] [("Y", "X", "is_a"), ("X", "R", "is_a")]
      "X" "R" "is_a" (by decide) 0 (by decide)⟩

/-! ## Claim C5: determinism -/

/-- **C5 (counterexample).** The claim as stated is false.  With ancestor
closure enabled, the closure walk iterates over the Python string sets
`slim_seeds` and `parents[u]`, whose enumeration order varies across runs
(string hashing is randomized per process).  On the raw input with slim
seeds `A, B` and closure-only ancestors `C` (of `A`) and `D` (of `B`), the
identity enumeration yields Order `[C, D, A, B]` while the reversed
enumeration yields `[D, C, B, A]` — two valid runs with different output. -/
theorem C5_counterexample : ¬ ClaimC5Prop := by
  intro h
  have h2 := (h id List.reverse (fun l => List.Perm.refl l) (fun l => List.reverse_perm l)
    [(⟨some "A", none, some ⟨[], none, ["slim"]⟩⟩ : RawNode),
     ⟨some "B", none, some ⟨[], none, ["slim"]⟩⟩,
     ⟨some "C", none, some ⟨[], none, []⟩⟩,
     ⟨some "D", none, some ⟨[], none, []⟩⟩]
    [(⟨some "A", some "C", some "is_a"⟩ : RawEdge),
     ⟨some "B", some "D", some "is_a"⟩]
    ["is_a"] (some "slim") none true).1
  exact absurd h2 (by decide)

/-- **C5 (amended).** With ancestor closure disabled, the pipeline is a pure
function of the raw nodes, raw edges and filter configuration: its Order
and Depth outputs do not depend on the enumeration order of Python's
unordered string sets, so two runs on identical input and configuration
produce identical outputs.  (With closure enabled, the set enumeration
order feeds node insertion order and can change Order, as the
counterexample shows.) -/
theorem C5_deterministic_without_closure (it1 it2 : List String → List String)
    (nodes : List RawNode) (edges : List RawEdge) (keep_pred : List String)
    (subset_suffix restrict_namespace : Option String) :
    (topo_order
        (keysOf (build_subset it1 nodes edges keep_pred subset_suffix
          restrict_namespace false).node_map)
        (build_subset it1 nodes edges keep_pred subset_suffix
          restrict_namespace false).E =
      topo_order
        (keysOf (build_subset it2 nodes edges keep_pred subset_suffix
          restrict_namespace false).node_map)
        (build_subset it2 nodes edges keep_pred subset_suffix
          restrict_namespace false).E) ∧
    (compute_depths
        (build_subset it1 nodes edges keep_pred subset_suffix
          restrict_namespace false).roots
        (build_subset it1 nodes edges keep_pred subset_suffix
          restrict_namespace false).E =
      compute_depths
        (build_subset it2 nodes edges keep_pred subset_suffix
          restrict_namespace false).roots
        (build_subset it2 nodes edges keep_pred subset_suffix
          restrict_namespace false).E) :=
  ⟨rfl, rfl⟩

/-! ## Claim C9: exit signals -/

/-- **C9.** The program distinguishes its two failure modes: malformed input
(an unparseable JSON, caught and `sys.exit(1)`, or an empty `graphs[]`,
whose `SystemExit` escapes `except Exception` and ends the interpreter with
code 1) aborts with exit signal 1, while a filter configuration that
retains zero nodes aborts with the distinct empty-result signal 2 — never
the malformed-input signal. -/
theorem C9_exit_signals_distinct (setIter : List String → List String)
    (keep_pred : List String) (subset_suffix restrict_namespace : Option String)
    (include_ancestors : Bool) :
    main_exit setIter .jsonError keep_pred subset_suffix restrict_namespace
      include_ancestors = 1 ∧
    main_exit setIter .noGraphs keep_pred subset_suffix restrict_namespace
      include_ancestors = 1 ∧
    (∀ (nodes : List RawNode) (edges : List RawEdge),
      (build_subset setIter nodes edges keep_pred subset_suffix restrict_namespace
        include_ancestors).node_map = [] →
      main_exit setIter (.ok nodes edges) keep_pred subset_suffix restrict_namespace
        include_ancestors = 2) := by
  refine ⟨rfl, rfl, ?_⟩
  intro nodes edges hempty
  simp [main_exit, hempty]

theorem C9_exit_signals_distinct_witness :
    main_exit id .jsonError ["is_a"] (some "nope") none false = 1 ∧
    main_exit id (.ok [⟨some "GO:1", none, some ⟨[], none, []⟩⟩] [])
      ["is_a"] (some "nope") none false = 2 :=
  ⟨(C9_exit_signals_distinct id ["is_a"] (some "nope") none false).1,
    (C9_exit_signals_distinct id ["is_a"] (some "nope") none false).2.2
      [⟨some "GO:1", none, some ⟨[], none, []⟩⟩] [] (by decide)⟩

/-! ## Claim C10: identity normalization -/

theorem before_append_trailing (s : String) :
    beforeTrailingDigits s ++ trailingDigits s = s.data := by
  unfold beforeTrailingDigits trailingDigits
  rw [← List.reverse_append, List.takeWhile_append_dropWhile, List.reverse_reverse]

theorem trailingDigits_digits (s : String) : ∀ c ∈ trailingDigits s, c.isDigit = true := by
  intro c hc
  unfold trailingDigits at hc
  rw [List.mem_reverse] at hc
  exact List.mem_takeWhile_imp hc

theorem goMatchEnd_some_decomp (s : String) (r : String) (h : goMatchEnd s = some r) :
    ∃ pl sep dl, s.data = pl ++ 'G' :: 'O' :: sep :: dl ∧ (sep = '_' ∨ sep = ':') ∧
      dl ≠ [] ∧ (∀ c ∈ dl, c.isDigit = true) ∧ r = String.mk ('G' :: 'O' :: ':' :: dl) := by
  unfold goMatchEnd at h
  cases htd : trailingDigits s with
  | nil =>
    rw [htd] at h
    simp at h
  | cons d0 dtl =>
    cases hbd : (beforeTrailingDigits s).reverse with
    | nil =>
      rw [htd, hbd] at h
      simp at h
    | cons sep tl1 =>
      cases tl1 with
      | nil =>
        rw [htd, hbd] at h
        simp at h
      | cons o tl2 =>
        cases tl2 with
        | nil =>
          rw [htd, hbd] at h
          simp at h
        | cons g tl3 =>
          rw [htd, hbd] at h
          simp only [] at h
          by_cases hcond : o = 'O' ∧ g = 'G' ∧ (sep = '_' ∨ sep = ':')
          · rw [if_pos hcond] at h
            obtain ⟨ho, hg, hsep⟩ := hcond
            refine ⟨tl3.reverse, sep, d0 :: dtl, ?_, hsep, by simp, ?_, ?_⟩
            · have hsplit := before_append_trailing s
              have hbefore : beforeTrailingDigits s = tl3.reverse ++ ['G', 'O', sep] := by
                have := congrArg List.reverse hbd
                rw [List.reverse_reverse] at this
                rw [this, ho, hg]
                simp
              rw [← hsplit, hbefore, htd]
              simp
            · intro c hc
              apply trailingDigits_digits s
              rw [htd]
              exact hc
            · exact (Option.some_injective _ h).symm
          · rw [if_neg hcond] at h
            cases h

theorem goMatch_some_decomp (s : String) (r : String) (h : goMatch s = some r) :
    ∃ pl sep dl, stripNL s.data = pl ++ 'G' :: 'O' :: sep :: dl ∧
      (sep = '_' ∨ sep = ':') ∧
      dl ≠ [] ∧ (∀ c ∈ dl, c.isDigit = true) ∧
      r = String.mk ('G' :: 'O' :: ':' :: dl) := by
  unfold goMatch at h
  exact goMatchEnd_some_decomp (String.mk (stripNL s.data)) r h

theorem mk_cons_ne_empty (c : Char) (l : List Char) : String.mk (c :: l) ≠ "" := by
  intro he
  have h := congrArg String.data he
  simp at h

theorem norm_go_id_some_ne_empty {o : Option String} {nid : String}
    (h : norm_go_id o = some nid) : nid ≠ "" := by
  cases o with
  | none => cases h
  | some s =>
    by_cases hse : s = ""
    · rw [hse] at h
      cases h
    · have hsh : norm_go_id (some s) = (if s = "" then none
          else match goMatch s with | some r => some r | none => some s) := rfl
      rw [hsh, if_neg hse] at h
      cases hgm : goMatch s with
      | none =>
        rw [hgm] at h
        have := Option.some_injective _ h
        rw [← this]
        exact hse
      | some r =>
        obtain ⟨pl, sep, dl, -, -, hne, -, hr⟩ := goMatch_some_decomp s r hgm
        rw [hgm] at h
        have hrn := Option.some_injective _ h
        rw [← hrn, hr]
        obtain ⟨d0, dtl, rfl⟩ : ∃ d0 dtl, dl = d0 :: dtl := by
          cases dl with
          | nil => exact absurd rfl hne
          | cons d0 dtl => exact ⟨d0, dtl, rfl⟩
        exact mk_cons_ne_empty 'G' _

theorem mem_keysOf_dictInsert {α : Type} (m : List (String × α)) (k : String) (v : α)
    (x : String) : x ∈ keysOf (dictInsert m k v) ↔ x ∈ keysOf m ∨ x = k := by
  by_cases h : k ∈ keysOf m
  · rw [keysOf_dictInsert_of_mem _ _ _ h]
    constructor
    · exact Or.inl
    · rintro (hx | hx)
      · exact hx
      · exact hx ▸ h
  · rw [keysOf_dictInsert_of_not_mem _ _ _ h]
    simp

theorem rawLookup_some {nodes : List RawNode} {p : String} {rn : RawNode}
    (h : rawLookup nodes p = some rn) : rn ∈ nodes ∧ norm_go_id rn.id = some p := by
  unfold rawLookup at h
  have hmem := List.mem_of_getLast?_eq_some h
  rcases List.mem_filter.1 hmem with ⟨h1, h2⟩
  simp only [decide_eq_true_eq] at h2
  exact ⟨h1, h2⟩

namespace Builder

theorem initialStep_none (subset restrict : Option String)
    (acc : List (String × NodeRec) × List String) (n : RawNode)
    (h : norm_go_id n.id = none) : initialStep subset restrict acc n = acc := by
  unfold initialStep
  rw [h]

theorem initialStep_some (subset restrict : Option String)
    (acc : List (String × NodeRec) × List String) (n : RawNode) (nid : String)
    (h : norm_go_id n.id = some nid) :
    initialStep subset restrict acc n =
      (if nid = "" then acc
       else if nsSkip restrict (get_namespace (some (n.meta.getD emptyMeta))) then acc
       else if truthy subset then
         if in_subset (n.meta.getD emptyMeta) (subset.getD "") then
           (dictInsert acc.1 nid (mkRec nid n (n.meta.getD emptyMeta)
             (get_namespace (some (n.meta.getD emptyMeta)))), seedAdd acc.2 nid)
         else acc
       else (dictInsert acc.1 nid (mkRec nid n (n.meta.getD emptyMeta)
         (get_namespace (some (n.meta.getD emptyMeta)))), acc.2)) := by
  unfold initialStep
  rw [h]

theorem initialStep_keys_mono (subset restrict : Option String)
    (acc : List (String × NodeRec) × List String) (n : RawNode) (x : String)
    (hx : x ∈ keysOf acc.1) : x ∈ keysOf (initialStep subset restrict acc n).1 := by
  cases hno : norm_go_id n.id with
  | none => rw [initialStep_none subset restrict acc n hno]; exact hx
  | some nid =>
    rw [initialStep_some subset restrict acc n nid hno]
    by_cases h0 : nid = ""
    · rw [if_pos h0]
      exact hx
    · rw [if_neg h0]
      by_cases h1 : nsSkip restrict (get_namespace (some (n.meta.getD emptyMeta))) = true
      · rw [if_pos h1]
        exact hx
      · rw [if_neg h1]
        by_cases h2 : truthy subset = true
        · rw [if_pos h2]
          by_cases h3 : in_subset (n.meta.getD emptyMeta) (subset.getD "") = true
          · rw [if_pos h3]
            exact (mem_keysOf_dictInsert _ _ _ x).2 (Or.inl hx)
          · rw [if_neg h3]
            exact hx
        · rw [if_neg h2]
          exact (mem_keysOf_dictInsert _ _ _ x).2 (Or.inl hx)

theorem initialFold_keys_mono (subset restrict : Option String) :
    ∀ (ns : List RawNode) (acc : List (String × NodeRec) × List String) (x : String),
      x ∈ keysOf acc.1 → x ∈ keysOf (ns.foldl (initialStep subset restrict) acc).1 := by
  intro ns
  induction ns with
  | nil => intro acc x hx; exact hx
  | cons n tl ih =>
    intro acc x hx
    rw [List.foldl_cons]
    exact ih _ x (initialStep_keys_mono subset restrict acc n x hx)

theorem initialFold_inserts (subset restrict : Option String) {nid : String} :
    ∀ (ns : List RawNode) (acc : List (String × NodeRec) × List String) (n : RawNode),
      n ∈ ns → norm_go_id n.id = some nid →
      nsSkip restrict (get_namespace (some (n.meta.getD emptyMeta))) = false →
      (truthy subset = false ∨ in_subset (n.meta.getD emptyMeta) (subset.getD "") = true) →
      nid ∈ keysOf (ns.foldl (initialStep subset restrict) acc).1 := by
  intro ns
  induction ns with
  | nil =>
    intro acc n hn
    cases hn
  | cons m tl ih =>
    intro acc n hn hnorm hns hsub
    rw [List.foldl_cons]
    rcases List.mem_cons.1 hn with hn | hn
    · subst hn
      apply initialFold_keys_mono
      rw [initialStep_some subset restrict acc n nid hnorm,
        if_neg (norm_go_id_some_ne_empty hnorm),
        if_neg (fun hc => Bool.false_ne_true (hns ▸ hc))]
      rcases hsub with hsub | hsub
      · rw [if_neg (fun hc => Bool.false_ne_true (hsub ▸ hc))]
        exact (mem_keysOf_dictInsert _ _ _ nid).2 (Or.inr rfl)
      · by_cases h2 : truthy subset = true
        · rw [if_pos h2, if_pos hsub]
          exact (mem_keysOf_dictInsert _ _ _ nid).2 (Or.inr rfl)
        · rw [if_neg h2]
          exact (mem_keysOf_dictInsert _ _ _ nid).2 (Or.inr rfl)
    · exact ih _ n hn hnorm hns hsub

end Builder

namespace Builder

theorem initialStep_new_key (subset restrict : Option String)
    (acc : List (String × NodeRec) × List String) (n : RawNode) (k : String)
    (hk : k ∈ keysOf (initialStep subset restrict acc n).1) :
    k ∈ keysOf acc.1 ∨ (norm_go_id n.id = some k ∧
      nsSkip restrict (get_namespace (some (n.meta.getD emptyMeta))) = false) := by
  cases hno : norm_go_id n.id with
  | none =>
    rw [initialStep_none subset restrict acc n hno] at hk
    exact Or.inl hk
  | some nid =>
    rw [initialStep_some subset restrict acc n nid hno] at hk
    by_cases h0 : nid = ""
    · rw [if_pos h0] at hk
      exact Or.inl hk
    · rw [if_neg h0] at hk
      by_cases h1 : nsSkip restrict (get_namespace (some (n.meta.getD emptyMeta))) = true
      · rw [if_pos h1] at hk
        exact Or.inl hk
      · rw [if_neg h1] at hk
        have h1' : nsSkip restrict (get_namespace (some (n.meta.getD emptyMeta))) = false :=
          Bool.not_eq_true _ ▸ Bool.of_not_eq_true h1
        by_cases h2 : truthy subset = true
        · rw [if_pos h2] at hk
          by_cases h3 : in_subset (n.meta.getD emptyMeta) (subset.getD "") = true
          · rw [if_pos h3] at hk
            rcases (mem_keysOf_dictInsert _ _ _ k).1 hk with hk | hk
            · exact Or.inl hk
            · exact Or.inr ⟨congrArg some hk.symm, h1'⟩
          · rw [if_neg h3] at hk
            exact Or.inl hk
        · rw [if_neg h2] at hk
          rcases (mem_keysOf_dictInsert _ _ _ k).1 hk with hk | hk
          · exact Or.inl hk
          · exact Or.inr ⟨congrArg some hk.symm, h1'⟩

theorem initialFold_new_key (subset restrict : Option String) :
    ∀ (ns : List RawNode) (acc : List (String × NodeRec) × List String) (k : String),
      k ∈ keysOf (ns.foldl (initialStep subset restrict) acc).1 →
      k ∈ keysOf acc.1 ∨ ∃ n ∈ ns, norm_go_id n.id = some k ∧
        nsSkip restrict (get_namespace (some (n.meta.getD emptyMeta))) = false := by
  intro ns
  induction ns with
  | nil => intro acc k hk; exact Or.inl hk
  | cons n tl ih =>
    intro acc k hk
    rw [List.foldl_cons] at hk
    rcases ih _ k hk with hk1 | ⟨m, hm, hmm2, hmm3⟩
    · rcases initialStep_new_key subset restrict acc n k hk1 with hk2 | hk2
      · exact Or.inl hk2
      · exact Or.inr ⟨n, List.mem_cons_self _ _, hk2⟩
    · exact Or.inr ⟨m, List.mem_cons_of_mem _ hm, hmm2, hmm3⟩

theorem closureRelax_eq (nodes : List RawNode) (restrict : Option String)
    (ps : List String) (s : CState) :
    closureRelax nodes restrict ps s = ps.foldl (closureStep nodes restrict) s := rfl

theorem closureStep_keys_mono (nodes : List RawNode) (restrict : Option String)
    (st : CState) (p k : String) (hk : k ∈ keysOf st.nm) :
    k ∈ keysOf (closureStep nodes restrict st p).nm := by
  unfold closureStep
  split
  · exact hk
  · split
    · exact hk
    · split
      · exact hk
      · split
        · exact (mem_keysOf_dictInsert _ _ _ k).2 (Or.inl hk)
        · exact hk

theorem closureStep_new_key (nodes : List RawNode) (restrict : Option String)
    (st : CState) (p k : String)
    (hk : k ∈ keysOf (closureStep nodes restrict st p).nm) :
    k ∈ keysOf st.nm ∨ ∃ rn, rawLookup nodes k = some rn ∧
      closureNsOk restrict (get_namespace (some (rn.meta.getD emptyMeta))) = true := by
  unfold closureStep at hk
  split at hk
  · exact Or.inl hk
  · split at hk
    · exact Or.inl hk
    · split at hk
      · exact Or.inl hk
      · rename_i rn hrl
        split at hk
        · rename_i h3
          rcases (mem_keysOf_dictInsert _ _ _ k).1 hk with hk2 | hk2
          · exact Or.inl hk2
          · exact Or.inr ⟨rn, by rw [hk2, hrl], h3⟩
        · exact Or.inl hk

theorem closureRelax_keys_mono (nodes : List RawNode) (restrict : Option String) :
    ∀ (ps : List String) (st : CState) (k : String),
      k ∈ keysOf st.nm → k ∈ keysOf (closureRelax nodes restrict ps st).nm := by
  intro ps
  induction ps with
  | nil => intro st k hk; exact hk
  | cons p tl ih =>
    intro st k hk
    rw [closureRelax_eq, List.foldl_cons, ← closureRelax_eq]
    exact ih _ k (closureStep_keys_mono nodes restrict st p k hk)

theorem closureRelax_new_key (nodes : List RawNode) (restrict : Option String) :
    ∀ (ps : List String) (st : CState) (k : String),
      k ∈ keysOf (closureRelax nodes restrict ps st).nm →
      k ∈ keysOf st.nm ∨ ∃ rn, rawLookup nodes k = some rn ∧
        closureNsOk restrict (get_namespace (some (rn.meta.getD emptyMeta))) = true := by
  intro ps
  induction ps with
  | nil => intro st k hk; exact Or.inl hk
  | cons p tl ih =>
    intro st k hk
    rw [closureRelax_eq, List.foldl_cons, ← closureRelax_eq] at hk
    rcases ih _ k hk with hk1 | hk1
    · exact closureStep_new_key nodes restrict st p k hk1
    · exact Or.inr hk1

theorem closureLoop_keys_mono (nodes : List RawNode) (restrict : Option String)
    (parentsF : String → List String) :
    ∀ (fuel : Nat) (s : CState) (k : String),
      k ∈ keysOf s.nm → k ∈ keysOf (closureLoop nodes restrict parentsF fuel s).nm := by
  intro fuel
  induction fuel with
  | zero => intro s k hk; exact hk
  | succ fuel ih =>
    intro s k hk
    obtain ⟨frontier, visited, nm⟩ := s
    cases frontier with
    | nil => exact hk
    | cons u rest =>
      exact ih _ k (closureRelax_keys_mono nodes restrict (parentsF u)
        ⟨rest, visited, nm⟩ k hk)

theorem closureLoop_new_key (nodes : List RawNode) (restrict : Option String)
    (parentsF : String → List String) :
    ∀ (fuel : Nat) (s : CState) (k : String),
      k ∈ keysOf (closureLoop nodes restrict parentsF fuel s).nm →
      k ∈ keysOf s.nm ∨ ∃ rn, rawLookup nodes k = some rn ∧
        closureNsOk restrict (get_namespace (some (rn.meta.getD emptyMeta))) = true := by
  intro fuel
  induction fuel with
  | zero => intro s k hk; exact Or.inl hk
  | succ fuel ih =>
    intro s k hk
    obtain ⟨frontier, visited, nm⟩ := s
    cases frontier with
    | nil => exact Or.inl hk
    | cons u rest =>
      rcases ih _ k hk with hk1 | hk1
      · exact closureRelax_new_key nodes restrict (parentsF u) ⟨rest, visited, nm⟩ k hk1
      · exact Or.inr hk1

end Builder

namespace Builder

theorem build_subset_node_map (it : List String → List String)
    (nodes : List RawNode) (edges : List RawEdge) (keep_pred : List String)
    (subset restrict : Option String) (anc : Bool) :
    (build_subset it nodes edges keep_pred subset restrict anc).node_map =
      if anc then
        (closureLoop nodes restrict
          (fun u => it (parentsOf (collectRawEdges edges keep_pred) u))
          ((if truthy subset && !(initialPass nodes subset restrict).2.isEmpty
              then it (initialPass nodes subset restrict).2
              else keysOf (initialPass nodes subset restrict).1).length +
            (collectRawEdges edges keep_pred).length + 1)
          ⟨(if truthy subset && !(initialPass nodes subset restrict).2.isEmpty
              then it (initialPass nodes subset restrict).2
              else keysOf (initialPass nodes subset restrict).1),
            (if truthy subset && !(initialPass nodes subset restrict).2.isEmpty
              then it (initialPass nodes subset restrict).2
              else keysOf (initialPass nodes subset restrict).1),
            (initialPass nodes subset restrict).1⟩).nm
      else (initialPass nodes subset restrict).1 := rfl

theorem nsSkip_of_falsy_ns {restrict ns : Option String} (h : truthy ns = false) :
    nsSkip restrict ns = false := by
  unfold nsSkip
  rw [h]
  simp

theorem retained_of_ns_falsy (it : List String → List String)
    (nodes : List RawNode) (edges : List RawEdge) (keep_pred : List String)
    (subset restrict : Option String) (anc : Bool)
    (n : RawNode) (hn : n ∈ nodes) (nid : String)
    (hnorm : norm_go_id n.id = some nid)
    (hns : truthy (get_namespace (some (n.meta.getD emptyMeta))) = false)
    (hsub : truthy subset = false ∨
      in_subset (n.meta.getD emptyMeta) (subset.getD "") = true) :
    nid ∈ keysOf (build_subset it nodes edges keep_pred subset restrict anc).node_map := by
  have hip : nid ∈ keysOf (initialPass nodes subset restrict).1 :=
    initialFold_inserts subset restrict nodes ([], []) n hn hnorm (nsSkip_of_falsy_ns hns) hsub
  rw [build_subset_node_map]
  cases anc with
  | false =>
    rw [if_neg Bool.false_ne_true]
    exact hip
  | true =>
    rw [if_pos rfl]
    exact closureLoop_keys_mono _ _ _ _ _ nid hip

theorem excluded_of_ns_bad (it : List String → List String)
    (nodes : List RawNode) (edges : List RawEdge) (keep_pred : List String)
    (subset restrict : Option String) (anc : Bool) (nid : String)
    (hres : truthy restrict = true)
    (hbad : ∀ n ∈ nodes, norm_go_id n.id = some nid →
      truthy (get_namespace (some (n.meta.getD emptyMeta))) = true ∧
      get_namespace (some (n.meta.getD emptyMeta)) ≠ restrict) :
    nid ∉ keysOf (build_subset it nodes edges keep_pred subset restrict anc).node_map := by
  have hip : nid ∉ keysOf (initialPass nodes subset restrict).1 := by
    intro hmem
    rcases initialFold_new_key subset restrict nodes ([], []) nid hmem with
      h0 | ⟨n, hn, hnorm, hskip⟩
    · simp [keysOf] at h0
    · rcases hbad n hn hnorm with ⟨ht, hne⟩
      unfold nsSkip at hskip
      rw [hres, ht] at hskip
      simp at hskip
      exact hne hskip
  intro hmem
  rw [build_subset_node_map] at hmem
  cases anc with
  | false =>
    rw [if_neg Bool.false_ne_true] at hmem
    exact hip hmem
  | true =>
    rw [if_pos rfl] at hmem
    rcases closureLoop_new_key nodes restrict _ _ _ nid hmem with h0 | ⟨rn, hrl, hok⟩
    · exact hip h0
    · rcases rawLookup_some hrl with ⟨hrn, hnorm⟩
      rcases hbad rn hrn hnorm with ⟨ht, hne⟩
      have hnone : (get_namespace (some (rn.meta.getD emptyMeta))).isNone = false := by
        cases hg : get_namespace (some (rn.meta.getD emptyMeta)) with
        | none => rw [hg] at ht; simp [truthy] at ht
        | some s => rfl
      unfold closureNsOk at hok
      rw [hres, hnone] at hok
      simp at hok
      exact hne hok

end Builder

/-- C7 (counterexample): with restriction "biological_process" active, the raw
node GO:1 whose namespace tag is *present but empty* (`nspace = some ""`)
differs from the restriction, yet the initial pass retains it: Python's
`if restrict_namespace and ns and ns != restrict_namespace: continue`
(source line 123) treats the empty tag as falsy and does not skip, so the
claim's exclusion half is false. -/
theorem C7_counterexample : ¬ClaimC7Prop := by
  intro h
  exact h id [⟨some "GO:1", none, some ⟨[], some "", []⟩⟩] [] [] none
    (some "biological_process") false (by decide)
    ⟨some "GO:1", none, some ⟨[], some "", []⟩⟩ (by decide) "GO:1"
    (by decide) (by decide) (by decide) (by decide)

/-- C7 (amended): the namespace filter of `build_subset` acts on *truthiness*,
not presence.  (A) Retention: a raw node whose resolved namespace is not
truthy (absent, or present as the empty string) and which passes the subset
filter is retained, regardless of the active restriction and of ancestor
closure.  (B) Exclusion: when a restriction is active and every raw node
normalizing to `nid` has a truthy namespace differing from the restriction,
`nid` is excluded from the retained node set — by the initial pass's skip and,
under ancestor closure, by the closure namespace test of source line 176. -/
theorem C7_namespace_truthiness_filter :
    (∀ (it : List String → List String) (nodes : List RawNode) (edges : List RawEdge)
       (keep_pred : List String) (subset restrict : Option String) (anc : Bool),
       ∀ n ∈ nodes, ∀ nid, norm_go_id n.id = some nid →
         truthy (get_namespace (some (n.meta.getD emptyMeta))) = false →
         (truthy subset = false ∨
           in_subset (n.meta.getD emptyMeta) (subset.getD "") = true) →
         nid ∈ keysOf (build_subset it nodes edges keep_pred subset restrict anc).node_map)
    ∧
    (∀ (it : List String → List String) (nodes : List RawNode) (edges : List RawEdge)
       (keep_pred : List String) (subset restrict : Option String) (anc : Bool)
       (nid : String),
       truthy restrict = true →
       (∀ n ∈ nodes, norm_go_id n.id = some nid →
         truthy (get_namespace (some (n.meta.getD emptyMeta))) = true ∧
         get_namespace (some (n.meta.getD emptyMeta)) ≠ restrict) →
       nid ∉ keysOf (build_subset it nodes edges keep_pred subset restrict anc).node_map) :=
  ⟨fun it nodes edges kp sub res anc n hn nid h1 h2 h3 =>
     Builder.retained_of_ns_falsy it nodes edges kp sub res anc n hn nid h1 h2 h3,
   fun it nodes edges kp sub res anc nid h1 h2 =>
     Builder.excluded_of_ns_bad it nodes edges kp sub res anc nid h1 h2⟩

/-- Closed instance of the amended C7: GO:1 with an empty namespace tag is
retained under an active restriction; GO:2 with the truthy differing tag
"cellular_component" is excluded. -/
theorem C7_namespace_truthiness_filter_witness :
    ("GO:1" ∈ keysOf (build_subset id [⟨some "GO:1", none, some ⟨[], some "", []⟩⟩]
        [] [] none (some "biological_process") false).node_map) ∧
    ("GO:2" ∉ keysOf (build_subset id
        [⟨some "GO:2", none, some ⟨[], some "cellular_component", []⟩⟩]
        [] [] none (some "biological_process") false).node_map) :=
  ⟨C7_namespace_truthiness_filter.1 id [⟨some "GO:1", none, some ⟨[], some "", []⟩⟩]
     [] [] none (some "biological_process") false
     ⟨some "GO:1", none, some ⟨[], some "", []⟩⟩ (by decide) "GO:1"
     (by decide) (by decide) (Or.inl (by decide)),
   C7_namespace_truthiness_filter.2 id
     [⟨some "GO:2", none, some ⟨[], some "cellular_component", []⟩⟩]
     [] [] none (some "biological_process") false "GO:2" (by decide) (by decide)⟩

namespace Closure

theorem closureStep_of_visited (nodes : List RawNode) (restrict : Option String)
    (st : CState) (p : String) (hv : p ∈ st.visited) :
    closureStep nodes restrict st p = st := by
  unfold closureStep
  rw [if_pos hv]

theorem closureStep_frontier (nodes : List RawNode) (restrict : Option String)
    (st : CState) (p : String) (hv : p ∉ st.visited) :
    (closureStep nodes restrict st p).frontier = st.frontier ++ [p] := by
  unfold closureStep
  rw [if_neg hv]
  split
  · rfl
  · split
    · rfl
    · split
      · rfl
      · rfl

theorem closureStep_visited (nodes : List RawNode) (restrict : Option String)
    (st : CState) (p : String) (hv : p ∉ st.visited) :
    (closureStep nodes restrict st p).visited = st.visited ++ [p] := by
  unfold closureStep
  rw [if_neg hv]
  split
  · rfl
  · split
    · rfl
    · split
      · rfl
      · rfl

theorem closureStep_adds (nodes : List RawNode) (restrict : Option String)
    (st : CState) (p : String) (hv : p ∉ st.visited) (rn : RawNode)
    (hrl : rawLookup nodes p = some rn)
    (hok : closureNsOk restrict (get_namespace (some (rn.meta.getD emptyMeta))) = true) :
    p ∈ keysOf (closureStep nodes restrict st p).nm := by
  unfold closureStep
  rw [if_neg hv]
  by_cases hpn : p ∈ keysOf st.nm
  · rw [if_pos hpn]
    exact hpn
  · rw [if_neg hpn]
    split
    · rename_i heq
      rw [hrl] at heq
      exact Option.noConfusion heq
    · rename_i rn2 heq
      rw [hrl] at heq
      have hrn : rn = rn2 := Option.some.inj heq
      subst hrn
      rw [if_pos hok]
      exact (mem_keysOf_dictInsert _ _ _ p).2 (Or.inr rfl)

theorem closureFold_spec (nodes : List RawNode) (restrict : Option String) :
    ∀ (ps : List String) (st : CState), ∃ fresh : List String,
      (ps.foldl (closureStep nodes restrict) st).frontier = st.frontier ++ fresh ∧
      (ps.foldl (closureStep nodes restrict) st).visited = st.visited ++ fresh ∧
      fresh.Nodup ∧
      (∀ p ∈ fresh, p ∉ st.visited) ∧
      (∀ p ∈ fresh, p ∈ ps) ∧
      (∀ p ∈ ps, p ∈ (ps.foldl (closureStep nodes restrict) st).visited) ∧
      (∀ p ∈ fresh, ∀ rn, rawLookup nodes p = some rn →
        closureNsOk restrict (get_namespace (some (rn.meta.getD emptyMeta))) = true →
        p ∈ keysOf (ps.foldl (closureStep nodes restrict) st).nm) := by
  intro ps
  induction ps with
  | nil =>
    intro st
    refine ⟨[], by simp, by simp, List.nodup_nil, by simp, by simp, by simp, by simp⟩
  | cons p tl ih =>
    intro st
    rw [List.foldl_cons]
    by_cases hv : p ∈ st.visited
    · rw [closureStep_of_visited nodes restrict st p hv]
      obtain ⟨fresh, h1, h2, h3, h4, h5, h6, h7⟩ := ih st
      refine ⟨fresh, h1, h2, h3, h4, ?_, ?_, h7⟩
      · exact fun q hq => List.mem_cons_of_mem _ (h5 q hq)
      · intro q hq
        rcases List.mem_cons.1 hq with hq | hq
        · subst hq
          rw [h2]
          exact List.mem_append_left _ hv
        · exact h6 q hq
    · have hfr := closureStep_frontier nodes restrict st p hv
      have hvis := closureStep_visited nodes restrict st p hv
      obtain ⟨fresh1, h1, h2, h3, h4, h5, h6, h7⟩ := ih (closureStep nodes restrict st p)
      refine ⟨p :: fresh1, ?_, ?_, ?_, ?_, ?_, ?_, ?_⟩
      · rw [h1, hfr, List.append_assoc]
        rfl
      · rw [h2, hvis, List.append_assoc]
        rfl
      · refine List.nodup_cons.2 ⟨?_, h3⟩
        intro hp
        exact h4 p hp (by rw [hvis]; exact List.mem_append_right _ (List.mem_singleton.2 rfl))
      · intro q hq
        rcases List.mem_cons.1 hq with hq | hq
        · subst hq
          exact hv
        · intro hqv
          exact h4 q hq (by rw [hvis]; exact List.mem_append_left _ hqv)
      · intro q hq
        rcases List.mem_cons.1 hq with hq | hq
        · subst hq
          exact List.mem_cons_self _ _
        · exact List.mem_cons_of_mem _ (h5 q hq)
      · intro q hq
        rcases List.mem_cons.1 hq with hq | hq
        · subst hq
          rw [h2, hvis]
          exact List.mem_append_left _ (List.mem_append_right _ (List.mem_singleton.2 rfl))
        · exact h6 q hq
      · intro q hq rn hrl hok
        rcases List.mem_cons.1 hq with hq | hq
        · subst hq
          have hstep := closureStep_adds nodes restrict st q hv rn hrl hok
          have := Builder.closureRelax_keys_mono nodes restrict tl
            (closureStep nodes restrict st q) q hstep
          rw [Builder.closureRelax_eq] at this
          exact this
        · exact h7 q hq rn hrl hok

end Closure

namespace Closure

theorem closure_step_inv (nodes : List RawNode) (restrict : Option String)
    (parentsF : String → List String) (U : List String)
    (hU : ∀ u p, p ∈ parentsF u → p ∈ U)
    (u : String) (rest visited : List String) (nm : List (String × NodeRec))
    (hinv : Inv nodes restrict parentsF U ⟨u :: rest, visited, nm⟩) :
    Inv nodes restrict parentsF U
      (closureRelax nodes restrict (parentsF u) ⟨rest, visited, nm⟩) ∧
    (∀ x ∈ visited, x ∈ (closureRelax nodes restrict (parentsF u)
      ⟨rest, visited, nm⟩).visited) ∧
    (closureRelax nodes restrict (parentsF u) ⟨rest, visited, nm⟩).visited.length +
      (closureRelax nodes restrict (parentsF u) ⟨rest, visited, nm⟩).frontier.length =
      visited.length + rest.length +
        ((closureRelax nodes restrict (parentsF u) ⟨rest, visited, nm⟩).visited.length -
          visited.length) * 2 := by
  obtain ⟨fresh, h1, h2, h3, h4, h5, h6, h7⟩ :=
    closureFold_spec nodes restrict (parentsF u) ⟨rest, visited, nm⟩
  rw [← Builder.closureRelax_eq] at h1 h2 h6 h7
  have hvmono : ∀ x ∈ visited,
      x ∈ (closureRelax nodes restrict (parentsF u) ⟨rest, visited, nm⟩).visited := by
    intro x hx
    rw [h2]
    exact List.mem_append_left _ hx
  refine ⟨?_, hvmono, ?_⟩
  · refine ⟨?_, ?_, ?_, ?_, ?_⟩
    · intro x hx
      rw [h1] at hx
      rw [h2]
      rcases List.mem_append.1 hx with hx | hx
      · exact List.mem_append_left _ (hinv.fsub x (List.mem_cons_of_mem _ hx))
      · exact List.mem_append_right _ hx
    · rw [h2]
      exact hinv.vnodup.append h3 (fun a ha hb => h4 a hb ha)
    · intro x hx
      rw [h2] at hx
      rcases List.mem_append.1 hx with hx | hx
      · rcases hinv.closed x hx with hcl | hcl
        · rcases List.mem_cons.1 hcl with hcl | hcl
          · subst hcl
            refine Or.inr (fun p hp => h6 p hp)
          · refine Or.inl ?_
            rw [h1]
            exact List.mem_append_left _ hcl
        · exact Or.inr (fun p hp => hvmono p (hcl p hp))
      · refine Or.inl ?_
        rw [h1]
        exact List.mem_append_right _ hx
    · intro x hx rn hrl hok
      rw [h2] at hx
      rcases List.mem_append.1 hx with hx | hx
      · exact Builder.closureRelax_keys_mono nodes restrict (parentsF u)
          ⟨rest, visited, nm⟩ x (hinv.added x hx rn hrl hok)
      · exact h7 x hx rn hrl hok
    · intro x hx
      rw [h2] at hx
      rcases List.mem_append.1 hx with hx | hx
      · exact hinv.prov x hx
      · exact hU u x (h5 x hx)
  · rw [h1, h2]
    simp only [List.length_append]
    omega

theorem loop_end (nodes : List RawNode) (restrict : Option String)
    (parentsF : String → List String) (U : List String)
    (hU : ∀ u p, p ∈ parentsF u → p ∈ U) :
    ∀ (fuel : Nat) (s : CState), Inv nodes restrict parentsF U s →
      s.frontier.length + (U.length - s.visited.length) < fuel →
      (closureLoop nodes restrict parentsF fuel s).frontier = [] ∧
      Inv nodes restrict parentsF U (closureLoop nodes restrict parentsF fuel s) ∧
      (∀ x ∈ s.visited, x ∈ (closureLoop nodes restrict parentsF fuel s).visited) := by
  intro fuel
  induction fuel with
  | zero =>
    intro s hinv hlt
    exact absurd hlt (Nat.not_lt_zero _)
  | succ fuel ih =>
    intro s hinv hlt
    obtain ⟨frontier, visited, nm⟩ := s
    cases frontier with
    | nil => exact ⟨rfl, hinv, fun x hx => hx⟩
    | cons u rest =>
      obtain ⟨hinv2, hmono2, hlen2⟩ := closure_step_inv nodes restrict parentsF U hU u rest
        visited nm hinv
      have hvle : (closureRelax nodes restrict (parentsF u)
          ⟨rest, visited, nm⟩).visited.length ≤ U.length :=
        ((hinv2.vnodup.subperm (fun x hx => hinv2.prov x hx)).length_le)
      have hvle0 : visited.length ≤
          (closureRelax nodes restrict (parentsF u) ⟨rest, visited, nm⟩).visited.length := by
        obtain ⟨fresh, h1, h2, h3, h4, h5, h6, h7⟩ :=
          closureFold_spec nodes restrict (parentsF u) ⟨rest, visited, nm⟩
        rw [← Builder.closureRelax_eq] at h2
        rw [h2]
        simp only [List.length_append]
        omega
      have hlt2 : (closureRelax nodes restrict (parentsF u)
            ⟨rest, visited, nm⟩).frontier.length +
          (U.length - (closureRelax nodes restrict (parentsF u)
            ⟨rest, visited, nm⟩).visited.length) < fuel := by
        have hlt3 : (u :: rest).length + (U.length - visited.length) < fuel + 1 := hlt
        simp only [List.length_cons] at hlt3
        have hvle1 : visited.length ≤ U.length := le_trans hvle0 hvle
        omega
      obtain ⟨hc1, hc2, hc3⟩ := ih _ hinv2 hlt2
      exact ⟨hc1, hc2, fun x hx => hc3 x (hmono2 x hx)⟩

end Closure

theorem nodup_keysOf_dictInsert {α : Type} (m : List (String × α)) (k : String) (v : α)
    (h : (keysOf m).Nodup) : (keysOf (dictInsert m k v)).Nodup := by
  by_cases hk : k ∈ keysOf m
  · rw [keysOf_dictInsert_of_mem _ _ _ hk]
    exact h
  · rw [keysOf_dictInsert_of_not_mem _ _ _ hk]
    refine h.append (List.nodup_singleton k) ?_
    intro a ha hb
    rw [List.mem_singleton] at hb
    subst hb
    exact hk ha

namespace Builder

theorem initialStep_keys_nodup (subset restrict : Option String)
    (acc : List (String × NodeRec) × List String) (n : RawNode)
    (h : (keysOf acc.1).Nodup) : (keysOf (initialStep subset restrict acc n).1).Nodup := by
  cases hno : norm_go_id n.id with
  | none =>
    rw [initialStep_none subset restrict acc n hno]
    exact h
  | some nid =>
    rw [initialStep_some subset restrict acc n nid hno]
    by_cases h0 : nid = ""
    · rw [if_pos h0]; exact h
    · rw [if_neg h0]
      by_cases h1 : nsSkip restrict (get_namespace (some (n.meta.getD emptyMeta))) = true
      · rw [if_pos h1]; exact h
      · rw [if_neg h1]
        by_cases h2 : truthy subset = true
        · rw [if_pos h2]
          by_cases h3 : in_subset (n.meta.getD emptyMeta) (subset.getD "") = true
          · rw [if_pos h3]
            exact nodup_keysOf_dictInsert _ _ _ h
          · rw [if_neg h3]; exact h
        · rw [if_neg h2]
          exact nodup_keysOf_dictInsert _ _ _ h

theorem initialStep_seed_inv (subset restrict : Option String)
    (acc : List (String × NodeRec) × List String) (n : RawNode)
    (h1 : acc.2.Nodup) (h2 : ∀ x ∈ acc.2, x ∈ keysOf acc.1) :
    (initialStep subset restrict acc n).2.Nodup ∧
    ∀ x ∈ (initialStep subset restrict acc n).2,
      x ∈ keysOf (initialStep subset restrict acc n).1 := by
  cases hno : norm_go_id n.id with
  | none =>
    rw [initialStep_none subset restrict acc n hno]
    exact ⟨h1, h2⟩
  | some nid =>
    rw [initialStep_some subset restrict acc n nid hno]
    by_cases hb0 : nid = ""
    · rw [if_pos hb0]; exact ⟨h1, h2⟩
    · rw [if_neg hb0]
      by_cases hb1 : nsSkip restrict (get_namespace (some (n.meta.getD emptyMeta))) = true
      · rw [if_pos hb1]; exact ⟨h1, h2⟩
      · rw [if_neg hb1]
        by_cases hb2 : truthy subset = true
        · rw [if_pos hb2]
          by_cases hb3 : in_subset (n.meta.getD emptyMeta) (subset.getD "") = true
          · rw [if_pos hb3]
            constructor
            · unfold seedAdd
              by_cases hs : nid ∈ acc.2
              · rw [if_pos hs]; exact h1
              · rw [if_neg hs]
                refine h1.append (List.nodup_singleton nid) ?_
                intro a ha hbx
                rw [List.mem_singleton] at hbx
                subst hbx
                exact hs ha
            · intro x hx
              unfold seedAdd at hx
              by_cases hs : nid ∈ acc.2
              · rw [if_pos hs] at hx
                exact (mem_keysOf_dictInsert _ _ _ x).2 (Or.inl (h2 x hx))
              · rw [if_neg hs] at hx
                rcases List.mem_append.1 hx with hx | hx
                · exact (mem_keysOf_dictInsert _ _ _ x).2 (Or.inl (h2 x hx))
                · rw [List.mem_singleton] at hx
                  subst hx
                  exact (mem_keysOf_dictInsert _ _ _ x).2 (Or.inr rfl)
          · rw [if_neg hb3]; exact ⟨h1, h2⟩
        · rw [if_neg hb2]
          refine ⟨h1, ?_⟩
          intro x hx
          exact (mem_keysOf_dictInsert _ _ _ x).2 (Or.inl (h2 x hx))

theorem initialFold_keys_nodup (subset restrict : Option String) :
    ∀ (ns : List RawNode) (acc : List (String × NodeRec) × List String),
      (keysOf acc.1).Nodup → (keysOf (ns.foldl (initialStep subset restrict) acc).1).Nodup := by
  intro ns
  induction ns with
  | nil => intro acc h; exact h
  | cons n tl ih =>
    intro acc h
    rw [List.foldl_cons]
    exact ih _ (initialStep_keys_nodup subset restrict acc n h)

theorem initialFold_seed_inv (subset restrict : Option String) :
    ∀ (ns : List RawNode) (acc : List (String × NodeRec) × List String),
      acc.2.Nodup → (∀ x ∈ acc.2, x ∈ keysOf acc.1) →
      (ns.foldl (initialStep subset restrict) acc).2.Nodup ∧
      ∀ x ∈ (ns.foldl (initialStep subset restrict) acc).2,
        x ∈ keysOf (ns.foldl (initialStep subset restrict) acc).1 := by
  intro ns
  induction ns with
  | nil => intro acc h1 h2; exact ⟨h1, h2⟩
  | cons n tl ih =>
    intro acc h1 h2
    rw [List.foldl_cons]
    obtain ⟨h3, h4⟩ := initialStep_seed_inv subset restrict acc n h1 h2
    exact ih _ h3 h4

theorem mem_parentsOf {raw_edges : List (String × String × String)} {u p t : String}
    (h : (u, p, t) ∈ raw_edges) : p ∈ parentsOf raw_edges u := by
  unfold parentsOf
  rw [List.mem_dedup]
  exact List.mem_map.2 ⟨(u, p, t), List.mem_filter.2 ⟨h, by simp⟩, rfl⟩

theorem parentsOf_prov {raw_edges : List (String × String × String)} {u p : String}
    (h : p ∈ parentsOf raw_edges u) : p ∈ (raw_edges.map (fun e => e.2.1)).dedup := by
  unfold parentsOf at h
  rw [List.mem_dedup] at h
  rw [List.mem_dedup]
  rcases List.mem_map.1 h with ⟨e, he, hep⟩
  exact List.mem_map.2 ⟨e, (List.mem_filter.1 he).1, hep⟩

end Builder

namespace Closure

theorem complete (nodes : List RawNode) (restrict : Option String)
    (it : List String → List String) (hIter : ValidIter it)
    (raw : List (String × String × String))
    (frontier0 seeds : List String) (nm0 : List (String × NodeRec))
    (hfm : ∀ x, x ∈ frontier0 ↔ x ∈ seeds)
    (hfn : frontier0.Nodup)
    (hfk : ∀ x ∈ frontier0, x ∈ keysOf nm0)
    (fuel : Nat)
    (hfuel : frontier0.length + (raw.map (fun e => e.2.1)).dedup.length < fuel)
    (nid : String)
    (hre : ReachFrom raw seeds nid)
    (rn : RawNode) (hrl : rawLookup nodes nid = some rn)
    (hok : closureNsOk restrict (get_namespace (some (rn.meta.getD emptyMeta))) = true) :
    nid ∈ keysOf (closureLoop nodes restrict (fun u => it (parentsOf raw u)) fuel
      ⟨frontier0, frontier0, nm0⟩).nm := by
  have hU : ∀ u p, p ∈ (fun u => it (parentsOf raw u)) u →
      p ∈ frontier0 ++ (raw.map (fun e => e.2.1)).dedup := by
    intro u p hp
    exact List.mem_append_right _
      (Builder.parentsOf_prov ((hIter (parentsOf raw u)).mem_iff.1 hp))
  have hinv0 : Inv nodes restrict (fun u => it (parentsOf raw u))
      (frontier0 ++ (raw.map (fun e => e.2.1)).dedup) ⟨frontier0, frontier0, nm0⟩ :=
    ⟨fun x hx => hx, hfn, fun x hx => Or.inl hx,
     fun x hx rn2 hrl2 hok2 => hfk x hx, fun x hx => List.mem_append_left _ hx⟩
  have hfuel2 : (⟨frontier0, frontier0, nm0⟩ : CState).frontier.length +
      ((frontier0 ++ (raw.map (fun e => e.2.1)).dedup).length -
        (⟨frontier0, frontier0, nm0⟩ : CState).visited.length) < fuel := by
    simp only [List.length_append]
    omega
  obtain ⟨hend, hinvF, hmonoF⟩ := loop_end nodes restrict
    (fun u => it (parentsOf raw u)) (frontier0 ++ (raw.map (fun e => e.2.1)).dedup)
    hU fuel ⟨frontier0, frontier0, nm0⟩ hinv0 hfuel2
  have hvis : ∀ x, ReachFrom raw seeds x →
      x ∈ (closureLoop nodes restrict (fun u => it (parentsOf raw u)) fuel
        ⟨frontier0, frontier0, nm0⟩).visited := by
    intro x hx
    induction hx with
    | base y hy => exact hmonoF y ((hfm y).2 hy)
    | step u p t hru hedge ih =>
      rcases hinvF.closed u ih with hcl | hcl
      · rw [hend] at hcl
        exact absurd hcl (List.not_mem_nil u)
      · exact hcl p ((hIter (parentsOf raw u)).mem_iff.2 (Builder.mem_parentsOf hedge))
  exact hinvF.added nid (hvis nid hre) rn hrl hok

end Closure

/-- C8: with ancestor closure enabled, the Graph Builder retains every node
reachable by upward (child→parent) steps along the kept raw edges from the
seed set (the slim-tagged seeds when a subset filter is active and matched
anything, else all initially retained keys) that exists in the raw node
collection and passes the permissive closure namespace test — regardless of
the subset predicate; and every retained key either came from the initial
pass or names such an existing, namespace-permitted node, so the closure
never adds a node rejected by the namespace restriction. -/
theorem C8_ancestor_closure_characterization
    (it : List String → List String) (hIter : ValidIter it)
    (nodes : List RawNode) (edges : List RawEdge) (keep_pred : List String)
    (subset restrict : Option String) (nid : String) :
    (ReachFrom (collectRawEdges edges keep_pred)
        (if truthy subset && !(initialPass nodes subset restrict).2.isEmpty
          then (initialPass nodes subset restrict).2
          else keysOf (initialPass nodes subset restrict).1) nid →
      ∀ rn, rawLookup nodes nid = some rn →
        closureNsOk restrict (get_namespace (some (rn.meta.getD emptyMeta))) = true →
        nid ∈ keysOf (build_subset it nodes edges keep_pred subset restrict
          true).node_map)
    ∧
    (nid ∈ keysOf (build_subset it nodes edges keep_pred subset restrict
        true).node_map →
      nid ∈ keysOf (initialPass nodes subset restrict).1 ∨
      ∃ rn, rawLookup nodes nid = some rn ∧
        closureNsOk restrict (get_namespace (some (rn.meta.getD emptyMeta))) = true) := by
  have hseed := Builder.initialFold_seed_inv subset restrict nodes ([], [])
    List.nodup_nil (fun x hx => absurd hx (List.not_mem_nil x))
  have hkn : (keysOf (initialPass nodes subset restrict).1).Nodup :=
    Builder.initialFold_keys_nodup subset restrict nodes ([], []) (by simp [keysOf])
  have hfm : ∀ x, x ∈ (if truthy subset && !(initialPass nodes subset restrict).2.isEmpty
      then it (initialPass nodes subset restrict).2
      else keysOf (initialPass nodes subset restrict).1) ↔
      x ∈ (if truthy subset && !(initialPass nodes subset restrict).2.isEmpty
      then (initialPass nodes subset restrict).2
      else keysOf (initialPass nodes subset restrict).1) := by
    intro x
    by_cases hc : (truthy subset && !(initialPass nodes subset restrict).2.isEmpty) = true
    · rw [if_pos hc, if_pos hc]
      exact (hIter (initialPass nodes subset restrict).2).mem_iff
    · rw [if_neg hc, if_neg hc]
  have hfn : (if truthy subset && !(initialPass nodes subset restrict).2.isEmpty
      then it (initialPass nodes subset restrict).2
      else keysOf (initialPass nodes subset restrict).1).Nodup := by
    by_cases hc : (truthy subset && !(initialPass nodes subset restrict).2.isEmpty) = true
    · rw [if_pos hc]
      exact ((hIter (initialPass nodes subset restrict).2).nodup_iff).2 hseed.1
    · rw [if_neg hc]
      exact hkn
  have hfk : ∀ x ∈ (if truthy subset && !(initialPass nodes subset restrict).2.isEmpty
      then it (initialPass nodes subset restrict).2
      else keysOf (initialPass nodes subset restrict).1),
      x ∈ keysOf (initialPass nodes subset restrict).1 := by
    intro x hx
    by_cases hc : (truthy subset && !(initialPass nodes subset restrict).2.isEmpty) = true
    · rw [if_pos hc] at hx
      exact hseed.2 x ((hIter (initialPass nodes subset restrict).2).mem_iff.1 hx)
    · rw [if_neg hc] at hx
      exact hx
  have hfuel : (if truthy subset && !(initialPass nodes subset restrict).2.isEmpty
      then it (initialPass nodes subset restrict).2
      else keysOf (initialPass nodes subset restrict).1).length +
      ((collectRawEdges edges keep_pred).map (fun e => e.2.1)).dedup.length <
      (if truthy subset && !(initialPass nodes subset restrict).2.isEmpty
      then it (initialPass nodes subset restrict).2
      else keysOf (initialPass nodes subset restrict).1).length +
      (collectRawEdges edges keep_pred).length + 1 := by
    have hd : ((collectRawEdges edges keep_pred).map (fun e => e.2.1)).dedup.length ≤
        ((collectRawEdges edges keep_pred).map (fun e => e.2.1)).length :=
      (List.dedup_sublist _).length_le
    rw [List.length_map] at hd
    omega
  constructor
  · intro hre rn hrl hok
    rw [Builder.build_subset_node_map, if_pos rfl]
    exact Closure.complete nodes restrict it hIter (collectRawEdges edges keep_pred)
      _ _ _ hfm hfn hfk _ hfuel nid hre rn hrl hok
  · intro hmem
    rw [Builder.build_subset_node_map, if_pos rfl] at hmem
    rcases Builder.closureLoop_new_key nodes restrict _ _ _ nid hmem with h | h
    · exact Or.inl h
    · exact Or.inr h

/-- Closed instance of C8 on the spec's example: nodes A, B, C with only B
slim-tagged and kept edges B→A and C→A; the ancestor A of the seed B is
retained via the closure, and the full retained key set is exactly
[B, A] — C is excluded. -/
theorem C8_ancestor_closure_characterization_witness :
    "A" ∈ keysOf (build_subset id
      [⟨some "A", none, some ⟨[], none, []⟩⟩,
       ⟨some "B", none, some ⟨[], none, ["slim"]⟩⟩,
       ⟨some "C", none, some ⟨[], none, []⟩⟩]
      [⟨some "B", some "A", some "is_a"⟩, ⟨some "C", some "A", some "is_a"⟩]
      ["is_a"] (some "slim") none true).node_map ∧
    keysOf (build_subset id
      [⟨some "A", none, some ⟨[], none, []⟩⟩,
       ⟨some "B", none, some ⟨[], none, ["slim"]⟩⟩,
       ⟨some "C", none, some ⟨[], none, []⟩⟩]
      [⟨some "B", some "A", some "is_a"⟩, ⟨some "C", some "A", some "is_a"⟩]
      ["is_a"] (some "slim") none true).node_map = ["B", "A"] :=
  ⟨(C8_ancestor_closure_characterization id (fun l => List.Perm.refl l)
      [⟨some "A", none, some ⟨[], none, []⟩⟩,
       ⟨some "B", none, some ⟨[], none, ["slim"]⟩⟩,
       ⟨some "C", none, some ⟨[], none, []⟩⟩]
      [⟨some "B", some "A", some "is_a"⟩, ⟨some "C", some "A", some "is_a"⟩]
      ["is_a"] (some "slim") none "A").1
    (ReachFrom.step "B" "A" "is_a" (ReachFrom.base "B" (by decide)) (by decide))
    ⟨some "A", none, some ⟨[], none, []⟩⟩ (by decide) (by decide),
   by decide⟩
